import Mathlib

/-!
# action-s3-cache: the archive and restore pipeline of archive.go

A shallow embedding of `Zip`, `Unzip` and `getReadableBytes` from
`src/archive.go`, with the library calls they make (os, path/filepath,
archive/tar, zstd) modelled over an explicit filesystem value.

Conventions of the model
* a path is the list of its components relative to the working directory,
  so `filepath.ToSlash` is the identity and `filepath.Dir` drops the last
  component;
* a directory is the listing of its entries; `filepath.Walk` visits them in
  the order of their names, whatever the order of the listing;
* permissions are those of an unprivileged process that owns the entries:
  the owner bits decide whether a file or directory can be opened; creating
  an entry in an existing directory is not subject to a check, and the umask
  is taken to leave the bits of a created entry as requested;
* a container stream is the list of its records (header, content bytes); the
  byte form of a stream (tar, then zstd) is a parameter, `Codec`;
* `filepath.Glob` is a parameter of the environment;
* a panic is an outcome of its own, distinct from a returned error.
-/

namespace ActionS3Cache

/-! ## Size formatter -/

/-- Two's-complement reduction of a mathematical integer to the int64 range. -/
def wrapInt64 (x : Int) : Int := (x + 2 ^ 63) % 2 ^ 64 - 2 ^ 63

/-- The string indexed by the exponent in getReadableBytes. -/
def unitLetters : List Char := "kMGTPE".toList

/-- The loop of getReadableBytes on the state (n, div, exp): guard `n >= unit`,
step `n /= unit`, body `div *= unit` (an int64 product) and `exp++`. -/
def readableLoop (n div : Int) (exp : Nat) : Int × Nat :=
  if 1000 ≤ n then readableLoop (Int.tdiv n 1000) (wrapInt64 (div * 1000)) (exp + 1)
  else (div, exp)
termination_by n.toNat
decreasing_by
  simp_wf
  rw [Int.tdiv_eq_ediv (by omega) (by omega)]
  omega

/-- What getReadableBytes hands to the formatter: the plain byte count
("%d B"), or the dividend, the divisor and the unit letter ("%.1f %cB"). -/
inductive Readable where
  | plain (b : Int)
  | scaled (b div : Int) (letter : Char)
deriving DecidableEq, Repr

/-- Model of getReadableBytes; `none` is the index-out-of-range panic of
`"kMGTPE"[exp]`. -/
def getReadableBytes (b : Int) : Option Readable :=
  if b < 1000 then some (Readable.plain b)
  else
    let r := readableLoop (Int.tdiv b 1000) 1000 0
    match unitLetters[r.2]? with
    | some c => some (Readable.scaled b r.1 c)
    | none => none

/-! ## Filesystem -/

/-- A path: its components, relative to the working directory. -/
abbrev Path := List String

/-- File content and archive bytes. -/
abbrev Bytes := List Nat

/-- A time stamp in nanoseconds. -/
abbrev Time := Nat

/-- The errors the model distinguishes. -/
inductive Err where
  | badPattern
  | notExist
  | notDir
  | isDir
  | permission
  | nilFileInfo
  | missedWriting
  | writeTooLong
  | corrupt
  | indexOutOfRange
deriving DecidableEq, Repr

/-- Attributes of a filesystem entry: the permission bits, the times, and two
flags. `statOk` tells whether `os.Lstat` on the entry succeeds (it does not,
for one, below a directory that the process may not search); `openOk` whether
opening the entry (a file, or a directory to read its names) meets no failure
other than a missing permission on the entry. -/
structure Attr where
  mode : Nat
  modTime : Time
  accessTime : Time
  statOk : Bool
  openOk : Bool
deriving DecidableEq, Repr

/-- Whether the owner may read the entry: bit 0o400 of the mode. -/
def Attr.ownerRead (a : Attr) : Bool := a.mode / 256 % 2 == 1

/-- Whether the owner may write the entry: bit 0o200 of the mode. -/
def Attr.ownerWrite (a : Attr) : Bool := a.mode / 128 % 2 == 1

/-- Whether the owner may search the directory: bit 0o100 of the mode. -/
def Attr.ownerSearch (a : Attr) : Bool := a.mode / 64 % 2 == 1

/-- Whether opening the entry for reading succeeds. The process is taken to be
an unprivileged one that owns the entries, so that the owner bits decide. -/
def Attr.canRead (a : Attr) : Bool := a.openOk && a.ownerRead

/-- The entries of a directory: regular files with their content and
subdirectories with their own listing. -/
inductive Listing where
  | nil
  | file (name : String) (a : Attr) (content : Bytes) (rest : Listing)
  | dir (name : String) (a : Attr) (sub : Listing) (rest : Listing)
deriving DecidableEq, Repr

/-- What a path resolves to. -/
inductive Item where
  | file (a : Attr) (content : Bytes)
  | dir (a : Attr) (sub : Listing)
deriving DecidableEq, Repr

/-- The attributes of an item. -/
def Item.attr : Item → Attr
  | Item.file a _ => a
  | Item.dir a _ => a

/-- Replace the attributes of an item. -/
def Item.setAttr (a : Attr) : Item → Item
  | Item.file _ c => Item.file a c
  | Item.dir _ s => Item.dir a s

/-- Put an item in front of a listing under a name. -/
def Listing.cons (name : String) : Item → Listing → Listing
  | Item.file a c, rest => Listing.file name a c rest
  | Item.dir a s, rest => Listing.dir name a s rest

/-- Resolve a non-empty path inside a listing. -/
def Listing.lookup : Listing → Path → Option Item
  | Listing.nil, _ => none
  | Listing.file name a c rest, p =>
    match p with
    | [] => none
    | n :: ps =>
      if n = name then (match ps with
        | [] => some (Item.file a c)
        | _ :: _ => none)
      else rest.lookup p
  | Listing.dir name a sub rest, p =>
    match p with
    | [] => none
    | n :: ps =>
      if n = name then (match ps with
        | [] => some (Item.dir a sub)
        | _ :: _ => sub.lookup ps)
      else rest.lookup p

/-- Store an item at a path whose parent directory exists: an entry of that
name is replaced, otherwise the item is added to the parent. `none` when the
parent is missing or is not a directory. -/
def Listing.put (it : Item) : Listing → Path → Option Listing
  | Listing.nil, p =>
    match p with
    | [n] => some (Listing.cons n it Listing.nil)
    | _ => none
  | Listing.file name a c rest, p =>
    match p with
    | [] => none
    | n :: ps =>
      if n = name then (match ps with
        | [] => some (Listing.cons n it rest)
        | _ :: _ => none)
      else (rest.put it p).map (Listing.file name a c)
  | Listing.dir name a sub rest, p =>
    match p with
    | [] => none
    | n :: ps =>
      if n = name then (match ps with
        | [] => some (Listing.cons n it rest)
        | _ :: _ => (sub.put it ps).map (fun s => Listing.dir name a s rest))
      else (rest.put it p).map (Listing.dir name a sub)

/-- The chain of fresh directories `n1/n2/...` that MkdirAll creates below
an existing directory. -/
def Listing.chain (a : Attr) : Path → Listing
  | [] => Listing.nil
  | n :: ps => Listing.dir n a (Listing.chain a ps) Listing.nil

/-- Model of `os.MkdirAll` inside a listing: existing directories on the way
are entered, a regular file on the way is an error, missing directories are
created with attributes `a`. -/
def Listing.mkdirAll (a : Attr) : Listing → Path → Except Err Listing
  | Listing.nil, p => Except.ok (Listing.chain a p)
  | Listing.file name b c rest, p =>
    match p with
    | [] => Except.ok (Listing.file name b c rest)
    | n :: _ =>
      if n = name then Except.error Err.notDir
      else (rest.mkdirAll a p).map (Listing.file name b c)
  | Listing.dir name b sub rest, p =>
    match p with
    | [] => Except.ok (Listing.dir name b sub rest)
    | n :: ps =>
      if n = name then (sub.mkdirAll a ps).map (fun s => Listing.dir name b s rest)
      else (rest.mkdirAll a p).map (Listing.dir name b sub)

/-- Strict lexical order on lists of character codes. -/
def codesLt : List Nat → List Nat → Bool
  | [], [] => false
  | [], _ :: _ => true
  | _ :: _, [] => false
  | a :: as, b :: bs => decide (a < b) || (decide (a = b) && codesLt as bs)

/-- The order in which `readDirNames` sorts names: byte-wise comparison of
strings, which for UTF-8 is the lexical order of the code points. -/
def nameLt (a b : String) : Bool :=
  codesLt (a.toList.map Char.toNat) (b.toList.map Char.toNat)

/-- Put an entry into a listing before the first entry of a greater name. -/
def Listing.insert (name : String) (it : Item) : Listing → Listing
  | Listing.nil => Listing.cons name it Listing.nil
  | Listing.file n a c rest =>
    if nameLt name n then Listing.cons name it (Listing.file n a c rest)
    else Listing.file n a c (Listing.insert name it rest)
  | Listing.dir n a s rest =>
    if nameLt name n then Listing.cons name it (Listing.dir n a s rest)
    else Listing.dir n a s (Listing.insert name it rest)

/-- The tree with the entries of every directory sorted by name, as
`readDirNames` returns them. -/
def Listing.sortAll : Listing → Listing
  | Listing.nil => Listing.nil
  | Listing.file n a c rest => (Listing.sortAll rest).insert n (Item.file a c)
  | Listing.dir n a s rest => (Listing.sortAll rest).insert n (Item.dir a (Listing.sortAll s))

/-- An item with the entries of every directory below it sorted by name. -/
def Item.sortAll : Item → Item
  | Item.file a c => Item.file a c
  | Item.dir a s => Item.dir a s.sortAll

/-- Resolve a path starting at an item: the item itself for the empty path,
otherwise what the path resolves to in the listing of a directory. -/
def Item.lookup (it : Item) : Path → Option Item
  | [] => some it
  | k :: ks =>
    match it with
    | Item.dir _ s => s.lookup (k :: ks)
    | Item.file _ _ => none

/-- A filesystem as the program sees it: the working directory, with its own
attributes and its entries. -/
structure FS where
  cwd : Attr
  entries : Listing
deriving DecidableEq, Repr

/-- Resolve a path; the empty path is the working directory. -/
def FS.lookup (fs : FS) : Path → Option Item
  | [] => some (Item.dir fs.cwd fs.entries)
  | n :: ps => fs.entries.lookup (n :: ps)

/-- The attributes and content of the regular file at a path, if there is one. -/
def FS.fileAt (fs : FS) (p : Path) : Option (Attr × Bytes) :=
  match fs.lookup p with
  | some (Item.file a c) => some (a, c)
  | _ => none

/-- Whether a directory exists at a path. -/
def FS.isDirAt (fs : FS) (p : Path) : Bool :=
  match fs.lookup p with
  | some (Item.dir _ _) => true
  | _ => false

/-- What is visible of an item from outside: a regular file with its attributes
and content, or a directory. -/
inductive Kind where
  | file (a : Attr) (content : Bytes)
  | dir
deriving DecidableEq, Repr

/-- The outside view of an item. -/
def Item.kind : Item → Kind
  | Item.file a c => Kind.file a c
  | Item.dir _ _ => Kind.dir

/-- The outside view of what a non-empty path resolves to inside a listing. -/
def Listing.kindAt (l : Listing) (p : Path) : Option Kind := (l.lookup p).map Item.kind

/-- The outside view of what a path resolves to. -/
def FS.kindAt (fs : FS) (p : Path) : Option Kind := (fs.lookup p).map Item.kind

/-- Store an item at a non-empty path (see `Listing.put`). -/
def FS.put (fs : FS) (p : Path) (it : Item) : Option FS :=
  (fs.entries.put it p).map (fun l => FS.mk fs.cwd l)

/-- Model of `os.Lstat`. -/
def FS.lstat (fs : FS) (p : Path) : Except Err Item :=
  match fs.lookup p with
  | none => Except.error Err.notExist
  | some it => if it.attr.statOk then Except.ok it else Except.error Err.permission

/-- Attributes of an entry created at time `now` with permission bits `mode`. -/
def Attr.fresh (mode : Nat) (now : Time) : Attr :=
  Attr.mk mode now now true true

/-- Model of `os.MkdirAll(p, mode)`. -/
def FS.mkdirAll (fs : FS) (p : Path) (mode : Nat) (now : Time) : Except Err FS :=
  (fs.entries.mkdirAll (Attr.fresh mode now) p).map (fun l => FS.mk fs.cwd l)

/-- Model of `os.OpenFile(p, O_RDWR [|O_CREATE] [|O_TRUNC], mode)` as far as
the filesystem is concerned: a directory cannot be opened for writing; an
existing file is opened when its owner may read and write it, whatever
`mode` says, and is emptied under O_TRUNC; a missing file is created empty
with the bits of `mode` under O_CREATE when its parent directory exists, and
the descriptor of a file just created can be written whatever its mode. -/
def FS.openFile (fs : FS) (p : Path) (create trunc : Bool) (mode : Nat) (now : Time) :
    Except Err FS :=
  match fs.lookup p with
  | some (Item.dir _ _) => Except.error Err.isDir
  | some (Item.file a _) =>
    if a.canRead && a.ownerWrite then
      (if trunc then
        (match fs.put p (Item.file (Attr.mk a.mode now a.accessTime a.statOk a.openOk) []) with
          | some fs1 => Except.ok fs1
          | none => Except.error Err.notExist)
      else Except.ok fs)
    else Except.error Err.permission
  | none =>
    if create then
      (match fs.put p (Item.file (Attr.fresh mode now) []) with
        | some fs1 => Except.ok fs1
        | none => Except.error Err.notExist)
    else Except.error Err.notExist

/-- Model of `io.Copy(fileToWrite, src)` on a file just opened: the bytes are
written from offset 0 over what the file holds, and bytes of the file beyond
the written length stay. -/
def FS.write (fs : FS) (p : Path) (data : Bytes) (now : Time) : FS :=
  match fs.lookup p with
  | some (Item.file a c) =>
    (match fs.put p (Item.file (Attr.mk a.mode now a.accessTime a.statOk a.openOk)
        (data ++ c.drop data.length)) with
      | some fs1 => fs1
      | none => fs)
  | _ => fs

/-- Model of `os.Chtimes(p, atime, mtime)`; an absent access time (the zero
time.Time) leaves the access time as it is. -/
def FS.chtimes (fs : FS) (p : Path) (atime : Option Time) (mtime : Time) : Except Err FS :=
  match fs.lookup p with
  | none => Except.error Err.notExist
  | some it =>
    let a := it.attr
    (match fs.put p (it.setAttr (Attr.mk a.mode mtime (atime.getD a.accessTime) a.statOk a.openOk)) with
      | some fs1 => Except.ok fs1
      | none => Except.error Err.notExist)

/-- Model of `os.Chmod(p, mode)`. -/
def FS.chmod (fs : FS) (p : Path) (mode : Nat) : Except Err FS :=
  match fs.lookup p with
  | none => Except.error Err.notExist
  | some it =>
    let a := it.attr
    (match fs.put p (it.setAttr (Attr.mk mode a.modTime a.accessTime a.statOk a.openOk)) with
      | some fs1 => Except.ok fs1
      | none => Except.error Err.notExist)

/-! ## Container stream -/

/-- The entry types Unzip tells apart: tar.TypeReg, tar.TypeDir, and the rest. -/
inductive TypeFlag where
  | reg
  | dir
  | other
deriving DecidableEq, Repr

/-- The fields of tar.Header the program reads or writes. An absent access
time is the zero time.Time. -/
structure Header where
  name : Path
  typeflag : TypeFlag
  size : Nat
  mode : Nat
  modTime : Time
  accessTime : Option Time
deriving DecidableEq, Repr

/-- One record of the container stream: a header and the content bytes that
follow it. -/
structure Record where
  header : Header
  content : Bytes
deriving DecidableEq, Repr

/-- Model of `time.Time.Round(time.Second)`: to the nearest second, halfway
values up. -/
def roundToSecond (t : Time) : Time :=
  if t % 1000000000 + t % 1000000000 < 1000000000 then t - t % 1000000000
  else t + (1000000000 - t % 1000000000)

/-- State of a tar.Writer: the records written so far, the content bytes the
current entry still expects, and the sticky error. -/
structure TarWriter where
  records : List Record
  remaining : Nat
  err : Option Err
deriving DecidableEq, Repr

/-- A writer as `tar.NewWriter` returns it. -/
def TarWriter.new : TarWriter := TarWriter.mk [] 0 none

/-- Append content bytes to the last record. -/
def appendToLast : List Record → Bytes → List Record
  | [], _ => []
  | [r], b => [Record.mk r.header (r.content ++ b)]
  | r :: r2 :: rs, b => r :: appendToLast (r2 :: rs) b

/-- Model of `tar.Writer.WriteHeader` for a header whose Format is unset:
it fails on a sticky error or when the previous entry is short of content;
otherwise ModTime is rounded to the second, AccessTime is dropped, and the
entry expects `Size` content bytes when it is a regular file. -/
def TarWriter.writeHeader (tw : TarWriter) (h : Header) : TarWriter × Option Err :=
  match tw.err with
  | some e => (tw, some e)
  | none =>
    if 0 < tw.remaining then (tw, some Err.missedWriting)
    else
      (TarWriter.mk
        (tw.records ++ [Record.mk
          (Header.mk h.name h.typeflag h.size h.mode (roundToSecond h.modTime) none) []])
        (if h.typeflag = TypeFlag.reg then h.size else 0) none, none)

/-- Model of `tar.Writer.Write`: at most the expected number of bytes is
taken, and a longer write reports ErrWriteTooLong. -/
def TarWriter.write (tw : TarWriter) (b : Bytes) : TarWriter × Option Err :=
  match tw.err with
  | some e => (tw, some e)
  | none =>
    (TarWriter.mk (appendToLast tw.records (b.take tw.remaining))
      (tw.remaining - b.length) none,
     if tw.remaining < b.length then some Err.writeTooLong else none)

/-- Model of `io.Copy(tw, data)` for a file holding `b`: nothing is written
for an empty file. -/
def TarWriter.copy (tw : TarWriter) (b : Bytes) : TarWriter × Option Err :=
  match b with
  | [] => (tw, none)
  | _ :: _ => tw.write b

/-- Model of `tar.Writer.Close`: the stream, or the error that makes the
archive invalid. -/
def TarWriter.close (tw : TarWriter) : Except Err (List Record) :=
  match tw.err with
  | some e => Except.error e
  | none => if 0 < tw.remaining then Except.error Err.missedWriting else Except.ok tw.records

/-- How reading a container stream ends: cleanly, at a header that cannot be
read, or inside the content of an entry whose header was read. -/
inductive StreamEnd where
  | eof
  | badHeader
  | badContent (h : Header) (got : Bytes)
deriving DecidableEq, Repr

/-- What the tar reader over the zstd reader yields for the bytes of a file:
the records read in full, then the end. -/
structure Decoded where
  records : List Record
  ending : StreamEnd
deriving DecidableEq, Repr

/-- The byte form of a container stream: tar inside zstd. -/
structure Codec where
  encode : List Record → Bytes
  decode : Bytes → Decoded

/-- What the program takes from its surroundings: `filepath.Glob`, the byte
form of the stream, and the clock. -/
structure Env where
  glob : FS → String → Except Err (List Path)
  codec : Codec
  now : Time

/-- How a run of Zip or Unzip ends, with the filesystem it leaves: nil
returned, an error returned, or a panic. -/
inductive Outcome where
  | ok (fs : FS)
  | error (e : Err) (fs : FS)
  | panic (e : Err) (fs : FS)
deriving DecidableEq, Repr

/-! ## Zip -/

/-- Model of `tar.FileInfoHeader(fi, file)`; a nil FileInfo is an error. -/
def fileInfoHeader (fi : Option Item) (file : Path) : Except Err Header :=
  match fi with
  | none => Except.error Err.nilFileInfo
  | some (Item.file a c) =>
    Except.ok (Header.mk file.getLast?.toList TypeFlag.reg c.length a.mode a.modTime
      (some a.accessTime))
  | some (Item.dir a _) =>
    Except.ok (Header.mk file.getLast?.toList TypeFlag.dir 0 a.mode a.modTime
      (some a.accessTime))

/-- The function Zip passes to `filepath.Walk`. `fi` is the entry the walk
found at `file` (nil when Lstat failed); the error argument of the callback is
shadowed in the source and so is no parameter here. `os.Open(file)` opens that
same entry. Returns the writer and the error returned to the walk. -/
def walkFn (tw : TarWriter) (file : Path) (fi : Option Item) : TarWriter × Option Err :=
  match fileInfoHeader fi file with
  | Except.error e => (tw, some e)
  | Except.ok header =>
    match tw.writeHeader (Header.mk file header.typeflag header.size header.mode
        header.modTime header.accessTime) with
    | (tw1, some e) => (tw1, some e)
    | (tw1, none) =>
      match fi with
      | some (Item.file a c) => if a.canRead then tw1.copy c else (tw1, some Err.permission)
      | _ => (tw1, none)

/-- Model of the loop of `filepath.walk` over the entries of the directory
`base`, given in the order of their names: an entry whose Lstat fails is
reported to the callback with a nil FileInfo; a directory is reported, then
entered unless its names cannot be read; the first error the callback returns
ends the walk. -/
def walkList (base : Path) : Listing → TarWriter → TarWriter × Option Err
  | Listing.nil, tw => (tw, none)
  | Listing.file name a c rest, tw =>
    match walkFn tw (base ++ [name]) (if a.statOk then some (Item.file a c) else none) with
    | (tw1, some e) => (tw1, some e)
    | (tw1, none) => walkList base rest tw1
  | Listing.dir name a sub rest, tw =>
    if a.statOk then
      (match walkFn tw (base ++ [name]) (some (Item.dir a sub)) with
        | (tw1, some e) => (tw1, some e)
        | (tw1, none) =>
          if a.canRead then
            (match walkList (base ++ [name]) sub tw1 with
              | (tw2, some e) => (tw2, some e)
              | (tw2, none) => walkList base rest tw2)
          else walkList base rest tw1)
    else
      (match walkFn tw (base ++ [name]) none with
        | (tw1, some e) => (tw1, some e)
        | (tw1, none) => walkList base rest tw1)

/-- Model of `filepath.Walk(root, fn)` with the callback of Zip. The names of
every directory are read in sorted order (`Listing.sortAll`). -/
def Walk (fs : FS) (root : Path) (tw : TarWriter) : TarWriter × Option Err :=
  match fs.lstat root with
  | Except.error _ => walkFn tw root none
  | Except.ok (Item.file a c) => walkFn tw root (some (Item.file a c))
  | Except.ok (Item.dir a sub) =>
    match walkFn tw root (some (Item.dir a sub)) with
    | (tw1, some e) => (tw1, some e)
    | (tw1, none) => if a.canRead then walkList root sub.sortAll tw1 else (tw1, none)

/-- The inner loop of Zip over the matches of one pattern; the value
`filepath.Walk` returns is dropped, as in the source. -/
def zipMatches (fs : FS) : List Path → TarWriter → TarWriter
  | [], tw => tw
  | m :: ms, tw => zipMatches fs ms (Walk fs m tw).1

/-- The outer loop of Zip over the patterns; a Glob error is returned. -/
def zipPatterns (env : Env) (fs : FS) : List String → TarWriter → Except Err TarWriter
  | [], tw => Except.ok tw
  | pattern :: rest, tw =>
    match env.glob fs pattern with
    | Except.error e => Except.error e
    | Except.ok found => zipPatterns env fs rest (zipMatches fs found tw)

/-- The container stream Zip hands to the compressor, when Glob and
`tw.Close` succeed. -/
def zipStream (env : Env) (fs : FS) (artifacts : List String) : Except Err (List Record) :=
  match zipPatterns env fs artifacts TarWriter.new with
  | Except.error e => Except.error e
  | Except.ok tw => tw.close

/-- The size `file.Size()` reports, as an int64. -/
def FS.sizeAt (fs : FS) (p : Path) : Int :=
  match fs.fileAt p with
  | some (_, c) => wrapInt64 c.length
  | none => 0

/-- Model of Zip (lines 18 to 101). `zstd.NewWriter` and `zw.Close` write to a
buffer in memory and do not fail; the log line formats the size of the file
with getReadableBytes, whose panic would end the run. -/
def Zip (env : Env) (fs : FS) (filename : Path) (artifacts : List String) : Outcome :=
  match zipStream env fs artifacts with
  | Except.error e => Outcome.error e fs
  | Except.ok stream =>
    match fs.openFile filename true false 0o600 env.now with
    | Except.error e => Outcome.panic e fs
    | Except.ok fs1 =>
      let fs2 := fs1.write filename (env.codec.encode stream) env.now
      match getReadableBytes (fs2.sizeAt filename) with
      | none => Outcome.panic Err.indexOutOfRange fs2
      | some _ =>
        match fs2.chmod filename 0o777 with
        | Except.error e => Outcome.error e fs2
        | Except.ok fs3 => Outcome.ok fs3

/-! ## Unzip -/

/-- The body of the loop of Unzip for a regular-file header, up to and
including the copy of `data`, the content bytes that can be read: MkdirAll (a
failure is only logged), OpenFile (a failure panics), io.Copy. -/
def unzipWrite (now : Time) (h : Header) (data : Bytes) (fs : FS) : Outcome :=
  let target := h.name
  let fs1 := match fs.mkdirAll target.dropLast 0o755 now with
    | Except.ok fs1 => fs1
    | Except.error _ => fs
  match fs1.openFile target true true h.mode now with
  | Except.error e => Outcome.panic e fs1
  | Except.ok fs2 => Outcome.ok (fs2.write target data now)

/-- The body of the loop of Unzip for one record read in full: a regular file
is written and given the times of its header (a failure panics); any other
record is passed over. -/
def unzipEntry (now : Time) (r : Record) (fs : FS) : Outcome :=
  if r.header.typeflag = TypeFlag.reg then
    match unzipWrite now r.header r.content fs with
    | Outcome.ok fs3 =>
      (match fs3.chtimes r.header.name r.header.accessTime r.header.modTime with
        | Except.error e => Outcome.panic e fs3
        | Except.ok fs4 => Outcome.ok fs4)
    | o => o
  else Outcome.ok fs

/-- The loop of Unzip over the records of the stream, then its end: an error
of `tarReader.Next` is returned, an error of the copy panics. -/
def unzipLoop (now : Time) (ending : StreamEnd) : List Record → FS → Outcome
  | [], fs =>
    match ending with
    | StreamEnd.eof => Outcome.ok fs
    | StreamEnd.badHeader => Outcome.error Err.corrupt fs
    | StreamEnd.badContent h got =>
      if h.typeflag = TypeFlag.reg then
        (match unzipWrite now h got fs with
          | Outcome.ok fs3 => Outcome.panic Err.corrupt fs3
          | o => o)
      else Outcome.error Err.corrupt fs
  | r :: rs, fs =>
    match unzipEntry now r fs with
    | Outcome.ok fs1 => unzipLoop now ending rs fs1
    | o => o

/-- Model of Unzip (lines 104 to 161). The archive is read as it is when it
is opened; `zstd.NewReader` does not fail, and a corrupt archive shows in what
the tar reader yields. -/
def Unzip (env : Env) (fs : FS) (filename : Path) : Outcome :=
  match fs.fileAt filename with
  | none => Outcome.error Err.notExist fs
  | some (a, bytes) =>
    if a.canRead then
      unzipLoop env.now (env.codec.decode bytes).ending (env.codec.decode bytes).records fs
    else Outcome.error Err.permission fs

/-- The last regular-file record of a stream stored under a path. -/
def lastReg (recs : List Record) (p : Path) : Option Record :=
  (recs.filter (fun r => r.header.typeflag = TypeFlag.reg ∧ r.header.name = p)).getLast?

/-! ## Walk order and failure-free filesystems -/

/-- Whether a directory with these attributes can be examined, read, searched
and written by its owner. -/
def Attr.dirOk (a : Attr) : Bool := a.statOk && a.canRead && a.ownerSearch && a.ownerWrite

/-- Whether every entry of a listing can be examined, every file read, and
every directory read, searched and written. -/
def Listing.healthy : Listing → Bool
  | Listing.nil => true
  | Listing.file _ a _ rest => a.statOk && a.canRead && rest.healthy
  | Listing.dir _ a sub rest => a.dirOk && sub.healthy && rest.healthy

/-- Whether an item and what lies below it is healthy in that sense. -/
def Item.healthy : Item → Bool
  | Item.file a _ => a.statOk && a.canRead
  | Item.dir a sub => a.dirOk && sub.healthy

/-- Whether no operation of the program on an existing entry of the
filesystem fails: every entry can be examined, every file read, and every
directory read, searched and written. -/
def FS.healthy (fs : FS) : Bool := fs.cwd.dirOk && fs.entries.healthy

/-- The record that stands for an entry in the stream: its path, type, size,
permission bits, modification time rounded to the second, and its content when
it is a regular file. -/
def entryRecord (p : Path) : Item → Record
  | Item.file a c =>
    Record.mk (Header.mk p TypeFlag.reg c.length a.mode (roundToSecond a.modTime) none) c
  | Item.dir a _ =>
    Record.mk (Header.mk p TypeFlag.dir 0 a.mode (roundToSecond a.modTime) none) []

/-- Pre-order enumeration of the entries of the directory `base`, taken in
the order of the listing: each entry before what lies below it. -/
def preorderList (base : Path) : Listing → List Record
  | Listing.nil => []
  | Listing.file name a c rest =>
    entryRecord (base ++ [name]) (Item.file a c) :: preorderList base rest
  | Listing.dir name a sub rest =>
    entryRecord (base ++ [name]) (Item.dir a sub) ::
      (preorderList (base ++ [name]) sub ++ preorderList base rest)

/-- Pre-order enumeration of the tree at a root: the root first, every
directory before what it holds, the entries of one directory in the order of
their names; a root that is a file is the only entry; a root that does not
exist has none. -/
def preorder (fs : FS) (root : Path) : List Record :=
  match fs.lookup root with
  | none => []
  | some (Item.file a c) => [entryRecord root (Item.file a c)]
  | some (Item.dir a sub) =>
    entryRecord root (Item.dir a sub) :: preorderList root sub.sortAll

/-- The roots Zip walks: the matches of each pattern, pattern by pattern. -/
def zipRoots (env : Env) (fs : FS) (artifacts : List String) : List Path :=
  artifacts.flatMap (fun pattern =>
    match env.glob fs pattern with
    | Except.ok found => found
    | Except.error _ => [])

/-- The names of the entries of a listing. -/
def Listing.names : Listing → List String
  | Listing.nil => []
  | Listing.file name _ _ rest => name :: rest.names
  | Listing.dir name _ _ rest => name :: rest.names

/-- Whether no directory of the tree holds two entries of one name. -/
def Listing.distinct : Listing → Bool
  | Listing.nil => true
  | Listing.file name _ _ rest => decide (name ∉ rest.names) && rest.distinct
  | Listing.dir name _ sub rest =>
    decide (name ∉ rest.names) && sub.distinct && rest.distinct

/-- Whether no directory at or below an item holds two entries of one name. -/
def Item.distinct : Item → Bool
  | Item.file _ _ => true
  | Item.dir _ s => s.distinct

/-- The state of a restore of the files of `fs` in a directory that held only
the archive `f`, after the regular files at the paths `done` were written:
its directories are directories of `fs`, its regular files are the archive
and files at paths of `done` that can be opened and have the permission bits
of the regular file of `fs` at that path. -/
def Restoring (fs fsX : FS) (f : Path) (done : List Path) : Prop :=
  (∀ q, fsX.kindAt q = some Kind.dir → fs.kindAt q = some Kind.dir) ∧
  (∀ q a c, fsX.kindAt q = some (Kind.file a c) →
    q = f ∨ (q ∈ done ∧ a.openOk = true ∧
      ∃ a0 c0, fs.kindAt q = some (Kind.file a0 c0) ∧ a.mode = a0.mode))

/-! ## Example inputs -/

/-- The filesystem an outcome carries. -/
def Outcome.fs : Outcome → FS
  | Outcome.ok fs => fs
  | Outcome.error _ fs => fs
  | Outcome.panic _ fs => fs

/-- Attributes of an entry that can be read, last modified at 1.5 s. -/
def exAttr : Attr := Attr.mk 0o644 1500000000 7 true true

/-- Attributes of a directory that its owner may read, write and search. -/
def exDirAttr : Attr := Attr.mk 0o755 1500000000 7 true true

/-- Attributes of an entry on which Lstat fails. -/
def exNoStat : Attr := Attr.mk 0o644 1500000000 7 false true

/-- Glob on patterns without metacharacters, as `filepath.Glob` treats them:
the pattern itself when Lstat on it succeeds, no match otherwise; the pattern
"[" is malformed. -/
def exGlob (fs : FS) (pattern : String) : Except Err (List Path) :=
  if pattern = "[" then Except.error Err.badPattern
  else
    match fs.lstat [pattern] with
    | Except.ok _ => Except.ok [[pattern]]
    | Except.error _ => Except.ok []

/-- A byte form that maps the one stream `stream` to `arch` and back. -/
def exCodec (arch : Bytes) (stream : List Record) : Codec :=
  Codec.mk (fun _ => arch) (fun _ => Decoded.mk stream StreamEnd.eof)

/-- A working directory that holds the regular file `name` with content `c`. -/
def exOneFile (name : String) (c : Bytes) : FS :=
  FS.mk exDirAttr (Listing.file name exAttr c Listing.nil)

/-- A working directory that holds the empty directory `d`. -/
def exEmptyDir : FS := FS.mk exDirAttr (Listing.dir "d" exAttr Listing.nil Listing.nil)

/-- A working directory that holds the directory `d`, with the permission
bits 0644 and so without search permission, and in it a file `x`, on which
Lstat fails. -/
def exBroken : FS :=
  FS.mk exDirAttr
    (Listing.dir "d" exAttr (Listing.file "x" exNoStat [1, 2] Listing.nil) Listing.nil)

/-- The record of the directory `d` of the examples. -/
def exDirRecord : Record :=
  Record.mk (Header.mk ["d"] TypeFlag.dir 0 0o644 2000000000 none) []

/-- The record of a regular file `a` with content `c`. -/
def exFileRecord (c : Bytes) : Record :=
  Record.mk (Header.mk ["a"] TypeFlag.reg c.length 0o644 2000000000 none) c

/-- A byte form for an archive that holds the file `a` twice, with content
[1] and then with content [2, 3]. -/
def exRestoreEnv : Env :=
  Env.mk exGlob (exCodec [0] [exFileRecord [1], exFileRecord [2, 3]]) 99

/-- A working directory that holds the archive `arc` and a file `a` with four
bytes of content. -/
def exRestoreFs : FS :=
  FS.mk exDirAttr
    (Listing.file "arc" exAttr [0] (Listing.file "a" exAttr [9, 9, 9, 9] Listing.nil))

/-- Attributes of a file that its owner may read and not write. -/
def exReadOnly : Attr := Attr.mk 0o444 1500000000 7 true true

/-- A working directory, readable, writable and searchable, that holds the
regular file `name` with attributes `a` and content `c`. -/
def exHome (name : String) (a : Attr) (c : Bytes) : FS :=
  FS.mk exDirAttr (Listing.file name a c Listing.nil)

/-- A working directory that holds a directory `d` (with a directory `e`
holding a file `y`, and a file `x`) and an empty file `z`. -/
def exTree : FS :=
  FS.mk exDirAttr
    (Listing.dir "d" exDirAttr
      (Listing.dir "e" exDirAttr (Listing.file "y" exAttr [3] Listing.nil)
        (Listing.file "x" exAttr [1, 2] Listing.nil))
      (Listing.file "z" exAttr [] Listing.nil))

/-- A regular-file record at the path `p` with content `c`, permission bits
`mode` and modification time 2 s. -/
def exRecordAt (p : Path) (mode : Nat) (c : Bytes) : Record :=
  Record.mk (Header.mk p TypeFlag.reg c.length mode 2000000000 none) c

/-- A directory record at the path `p`. -/
def exDirRecordAt (p : Path) : Record :=
  Record.mk (Header.mk p TypeFlag.dir 0 0o755 2000000000 none) []

/-- A working directory that holds the file `a`, which its owner may read
and not write, and the file `b`. -/
def exPair : FS :=
  FS.mk exDirAttr
    (Listing.file "a" exReadOnly [1, 2] (Listing.file "b" exAttr [3] Listing.nil))

/-- The stream Zip writes for the patterns `a`, `a`, `b` in that directory. -/
def exPairStream : List Record :=
  [exRecordAt ["a"] 0o444 [1, 2], exRecordAt ["a"] 0o444 [1, 2], exRecordAt ["b"] 0o644 [3]]

/-- The stream Zip writes for the patterns `z` and `d` on the example tree. -/
def exTreeStream : List Record :=
  [exRecordAt ["z"] 0o644 [], exDirRecordAt ["d"], exDirRecordAt ["d", "e"],
    exRecordAt ["d", "e", "y"] 0o644 [3], exRecordAt ["d", "x"] 0o644 [1, 2]]

/-! # Theorems -/

/-! ## Size formatter: proofs -/

theorem readableLoop_stop (n div : Int) (exp : Nat) (h : n < 1000) :
    readableLoop n div exp = (div, exp) := by
  rw [readableLoop]; simp; omega

theorem readableLoop_step (n div : Int) (exp : Nat) (h : 1000 ≤ n) :
    readableLoop n div exp = readableLoop (n / 1000) (wrapInt64 (div * 1000)) (exp + 1) := by
  rw [readableLoop]; simp [h]
  rw [Int.tdiv_eq_ediv (by omega) (by omega)]

/-- The loop of getReadableBytes, started as the function starts it, ends with
an exponent of at most 5 and the matching power of 1000. -/
theorem readableLoop_spec (b : Int) (h1 : 1000 ≤ b) (h2 : b < 2 ^ 63) :
    ∃ e : Nat, e ≤ 5 ∧ readableLoop (Int.tdiv b 1000) 1000 0 = ((1000 : Int) ^ (e + 1), e)
      ∧ (1000 : Int) ^ (e + 1) ≤ b ∧ b < 1000 * (1000 : Int) ^ (e + 1) := by
  rw [Int.tdiv_eq_ediv (by omega) (by omega)]
  by_cases c0 : b < 1000 ^ 2
  · refine ⟨0, by omega, ?_, by omega, by omega⟩
    rw [readableLoop_stop _ _ _ (by omega)]; rfl
  by_cases c1 : b < 1000 ^ 3
  · refine ⟨1, by omega, ?_, by omega, by omega⟩
    rw [readableLoop_step _ _ _ (by omega), readableLoop_stop _ _ _ (by omega)]; rfl
  by_cases c2 : b < 1000 ^ 4
  · refine ⟨2, by omega, ?_, by omega, by omega⟩
    rw [readableLoop_step _ _ _ (by omega), readableLoop_step _ _ _ (by omega),
      readableLoop_stop _ _ _ (by omega)]; rfl
  by_cases c3 : b < 1000 ^ 5
  · refine ⟨3, by omega, ?_, by omega, by omega⟩
    rw [readableLoop_step _ _ _ (by omega), readableLoop_step _ _ _ (by omega),
      readableLoop_step _ _ _ (by omega), readableLoop_stop _ _ _ (by omega)]; rfl
  by_cases c4 : b < 1000 ^ 6
  · refine ⟨4, by omega, ?_, by omega, by omega⟩
    rw [readableLoop_step _ _ _ (by omega), readableLoop_step _ _ _ (by omega),
      readableLoop_step _ _ _ (by omega), readableLoop_step _ _ _ (by omega),
      readableLoop_stop _ _ _ (by omega)]; rfl
  · refine ⟨5, by omega, ?_, by omega, by omega⟩
    rw [readableLoop_step _ _ _ (by omega), readableLoop_step _ _ _ (by omega),
      readableLoop_step _ _ _ (by omega), readableLoop_step _ _ _ (by omega),
      readableLoop_step _ _ _ (by omega), readableLoop_stop _ _ _ (by omega)]; rfl

theorem unitLetters_lookup (e : Nat) (h : e ≤ 5) : ∃ c, unitLetters[e]? = some c := by
  have h6 : e = 0 ∨ e = 1 ∨ e = 2 ∨ e = 3 ∨ e = 4 ∨ e = 5 := by omega
  rcases h6 with h | h | h | h | h | h <;> subst h <;> exact ⟨_, rfl⟩

/-- Within the int64 range getReadableBytes never panics. -/
theorem getReadableBytes_isSome (b : Int) (h2 : b < 2 ^ 63) :
    ∃ r, getReadableBytes b = some r := by
  by_cases h : b < 1000
  · exact ⟨Readable.plain b, by simp [getReadableBytes, h]⟩
  · obtain ⟨e, he, hl, -, -⟩ := readableLoop_spec b (by omega) h2
    obtain ⟨c, hc⟩ := unitLetters_lookup e he
    exact ⟨Readable.scaled b (1000 ^ (e + 1)) c, by simp [getReadableBytes, h, hl, hc]⟩

/-- C10. For an int64 value b of at least 1000 the loop of getReadableBytes
ends with an exponent e between 0 and 5, so that indexing the unit string
succeeds, with the divisor equal to 1000^(e+1), below 2^63 (no int64
overflow), and 1000^(e+1) <= b < 1000 * 1000^(e+1); for b below 1000 the
function returns the plain byte count without indexing the unit string. -/
theorem getReadableBytes_magnitude (b : Int) (hlo : -(2 : Int) ^ 63 ≤ b) (hhi : b < 2 ^ 63) :
    (b < 1000 → getReadableBytes b = some (Readable.plain b)) ∧
    (1000 ≤ b → ∃ e : Nat, e ≤ 5 ∧
      readableLoop (Int.tdiv b 1000) 1000 0 = ((1000 : Int) ^ (e + 1), e) ∧
      (1000 : Int) ^ (e + 1) < 2 ^ 63 ∧
      (1000 : Int) ^ (e + 1) ≤ b ∧ b < 1000 * (1000 : Int) ^ (e + 1) ∧
      ∃ c, unitLetters[e]? = some c ∧
        getReadableBytes b = some (Readable.scaled b ((1000 : Int) ^ (e + 1)) c)) := by
  constructor
  · intro h
    simp [getReadableBytes, h]
  · intro h
    obtain ⟨e, he, hl, h3, h4⟩ := readableLoop_spec b h hhi
    obtain ⟨c, hc⟩ := unitLetters_lookup e he
    refine ⟨e, he, hl, by omega, h3, h4, c, hc, ?_⟩
    have hb : ¬ b < 1000 := by omega
    simp [getReadableBytes, hb, hl, hc]

theorem getReadableBytes_magnitude_witness :
    (-(2 : Int) ^ 63 ≤ 1500 ∧ (1500 : Int) < 2 ^ 63) ∧
    ((1500 : Int) < 1000 → getReadableBytes 1500 = some (Readable.plain 1500)) ∧
    ((1000 : Int) ≤ 1500 → ∃ e : Nat, e ≤ 5 ∧
      readableLoop (Int.tdiv 1500 1000) 1000 0 = ((1000 : Int) ^ (e + 1), e) ∧
      (1000 : Int) ^ (e + 1) < 2 ^ 63 ∧
      (1000 : Int) ^ (e + 1) ≤ 1500 ∧ (1500 : Int) < 1000 * (1000 : Int) ^ (e + 1) ∧
      ∃ c, unitLetters[e]? = some c ∧
        getReadableBytes 1500 = some (Readable.scaled 1500 ((1000 : Int) ^ (e + 1)) c)) :=
  ⟨⟨by decide, by decide⟩, getReadableBytes_magnitude 1500 (by decide) (by decide)⟩

/-! ## Filesystem: lookups after an operation -/

theorem Listing.lookup_nil_path (l : Listing) : l.lookup [] = none := by
  cases l <;> rfl

theorem Listing.kindAt_after_put (l : Listing) : ∀ (l' : Listing) (p q : Path) (a : Attr) (c : Bytes),
    l.put (Item.file a c) p = some l' → l.kindAt p ≠ some Kind.dir →
    l'.kindAt q = if q = p then some (Kind.file a c) else l.kindAt q := by
  induction l with
  | nil =>
    intro l' p q a c h _
    match p, h with
    | [n], h =>
      simp [Listing.put, Listing.cons] at h
      subst h
      match q with
      | [] => simp [Listing.kindAt, Listing.lookup]
      | [m] =>
        by_cases hm : m = n <;> simp [Listing.kindAt, Listing.lookup, hm, Item.kind]
      | m :: m2 :: qs =>
        by_cases hm : m = n <;> simp [Listing.kindAt, Listing.lookup, hm]
  | file name b c0 rest ih =>
    intro l' p q a c h hd
    match p, h, hd with
    | n :: ps, h, hd =>
      by_cases hn : n = name
      · subst hn
        match ps, h with
        | [], h =>
          simp [Listing.put, Listing.cons] at h
          subst h
          match q with
          | [] => simp [Listing.kindAt, Listing.lookup]
          | [m] => by_cases hm : m = n <;> simp [Listing.kindAt, Listing.lookup, hm, Item.kind]
          | m :: m2 :: qs => by_cases hm : m = n <;> simp [Listing.kindAt, Listing.lookup, hm]
        | k :: ks, h => simp [Listing.put] at h
      · simp [Listing.put, hn] at h
        obtain ⟨r', hr, rfl⟩ := h
        have hd' : rest.kindAt (n :: ps) ≠ some Kind.dir := by
          simpa [Listing.kindAt, Listing.lookup, hn] using hd
        have := ih r' (n :: ps) q a c hr hd'
        match q with
        | [] => simp [Listing.kindAt, Listing.lookup]
        | m :: qs =>
          by_cases hm : m = name
          · subst hm
            have hne : ¬ (m = n) := fun e => hn e.symm
            simp [Listing.kindAt, Listing.lookup, hne]
          · simpa [Listing.kindAt, Listing.lookup, hm] using this
  | dir name b sub rest ihs ihr =>
    intro l' p q a c h hd
    match p, h, hd with
    | n :: ps, h, hd =>
      by_cases hn : n = name
      · subst hn
        match ps, h, hd with
        | [], h, hd => simp [Listing.kindAt, Listing.lookup, Item.kind] at hd
        | k :: ks, h, hd =>
          simp [Listing.put] at h
          obtain ⟨s', hs, rfl⟩ := h
          have hd' : sub.kindAt (k :: ks) ≠ some Kind.dir := by
            simpa [Listing.kindAt, Listing.lookup] using hd
          match q with
          | [] => simp [Listing.kindAt, Listing.lookup]
          | [m] => by_cases hm : m = n <;> simp [Listing.kindAt, Listing.lookup, hm, Item.kind]
          | m :: m2 :: qs =>
            by_cases hm : m = n
            · subst hm
              have := ihs s' (k :: ks) (m2 :: qs) a c hs hd'
              simpa [Listing.kindAt, Listing.lookup] using this
            · simp [Listing.kindAt, Listing.lookup, hm]
      · simp [Listing.put, hn] at h
        obtain ⟨r', hr, rfl⟩ := h
        have hd' : rest.kindAt (n :: ps) ≠ some Kind.dir := by
          simpa [Listing.kindAt, Listing.lookup, hn] using hd
        have := ihr r' (n :: ps) q a c hr hd'
        match q with
        | [] => simp [Listing.kindAt, Listing.lookup]
        | m :: qs =>
          by_cases hm : m = name
          · subst hm
            have hne : ¬ (m = n) := fun e => hn e.symm
            simp [Listing.kindAt, Listing.lookup, hne]
          · simpa [Listing.kindAt, Listing.lookup, hm] using this

theorem Listing.kindAt_chain (a : Attr) : ∀ (p q : Path),
    (Listing.chain a p).kindAt q = if q ≠ [] ∧ q <+: p then some Kind.dir else none := by
  intro p
  induction p with
  | nil =>
    intro q
    cases q <;> simp [Listing.chain, Listing.kindAt, Listing.lookup]
  | cons n ps ih =>
    intro q
    match q with
    | [] => simp [Listing.chain, Listing.kindAt, Listing.lookup]
    | [m] =>
      by_cases hm : m = n <;>
        simp [Listing.chain, Listing.kindAt, Listing.lookup, hm, Item.kind, List.cons_prefix_cons]
    | m :: m2 :: qs =>
      by_cases hm : m = n
      · subst hm
        have := ih (m2 :: qs)
        simpa [Listing.chain, Listing.kindAt, Listing.lookup, List.cons_prefix_cons] using this
      · simp [Listing.chain, Listing.kindAt, Listing.lookup, hm, List.cons_prefix_cons]

theorem Listing.kindAt_after_mkdirAll (a : Attr) (l : Listing) : ∀ (l' : Listing) (p q : Path),
    l.mkdirAll a p = Except.ok l' →
    l'.kindAt q = (l.kindAt q).or (if q ≠ [] ∧ q <+: p then some Kind.dir else none) := by
  induction l with
  | nil =>
    intro l' p q h
    simp [Listing.mkdirAll] at h
    subst h
    rw [Listing.kindAt_chain]
    simp [Listing.kindAt, Listing.lookup]
  | file name b c0 rest ih =>
    intro l' p q h
    match p, h with
    | [], h =>
      simp [Listing.mkdirAll] at h
      subst h
      cases hq : (Listing.file name b c0 rest).kindAt q <;> simp
    | n :: ps, h =>
      by_cases hn : n = name
      · simp [Listing.mkdirAll, hn] at h
      · simp only [Listing.mkdirAll, hn, if_false] at h
        cases hr : rest.mkdirAll a (n :: ps) with
        | error e => simp [hr, Except.map] at h
        | ok r' =>
          simp [hr, Except.map] at h
          subst h
          have := ih r' (n :: ps) q hr
          match q with
          | [] => simp [Listing.kindAt, Listing.lookup]
          | m :: qs =>
            by_cases hm : m = name
            · subst hm
              have hne : ¬ (m = n) := fun e => hn e.symm
              cases qs <;> simp [Listing.kindAt, Listing.lookup, Item.kind, List.cons_prefix_cons, hne]
            · simpa [Listing.kindAt, Listing.lookup, hm] using this
  | dir name b sub rest ihs ihr =>
    intro l' p q h
    match p, h with
    | [], h =>
      simp [Listing.mkdirAll] at h
      subst h
      cases hq : (Listing.dir name b sub rest).kindAt q <;> simp
    | n :: ps, h =>
      by_cases hn : n = name
      · subst hn
        simp only [Listing.mkdirAll, if_true] at h
        cases hr : sub.mkdirAll a ps with
        | error e => simp [hr, Except.map] at h
        | ok s' =>
          simp [hr, Except.map] at h
          subst h
          match q with
          | [] => simp [Listing.kindAt, Listing.lookup]
          | [m] => by_cases hm : m = n <;> simp [Listing.kindAt, Listing.lookup, hm, Item.kind]
          | m :: m2 :: qs =>
            by_cases hm : m = n
            · subst hm
              have := ihs s' ps (m2 :: qs) hr
              simpa [Listing.kindAt, Listing.lookup, List.cons_prefix_cons] using this
            · simp [Listing.kindAt, Listing.lookup, hm]
      · simp only [Listing.mkdirAll, hn, if_false] at h
        cases hr : rest.mkdirAll a (n :: ps) with
        | error e => simp [hr, Except.map] at h
        | ok r' =>
          simp [hr, Except.map] at h
          subst h
          have := ihr r' (n :: ps) q hr
          match q with
          | [] => simp [Listing.kindAt, Listing.lookup]
          | m :: qs =>
            by_cases hm : m = name
            · subst hm
              have hne : ¬ (m = n) := fun e => hn e.symm
              cases hq : (Listing.dir m b sub rest).kindAt (m :: qs) <;>
                simp_all [Listing.kindAt, Listing.lookup, List.cons_prefix_cons]
            · simpa [Listing.kindAt, Listing.lookup, hm] using this

theorem FS.kindAt_root (fs : FS) : fs.kindAt [] = some Kind.dir := rfl

theorem FS.kindAt_cons (fs : FS) (n : String) (ps : Path) :
    fs.kindAt (n :: ps) = fs.entries.kindAt (n :: ps) := rfl

theorem FS.lookup_of_kind_file (fs : FS) (p : Path) (a : Attr) (c : Bytes)
    (h : fs.kindAt p = some (Kind.file a c)) : fs.lookup p = some (Item.file a c) := by
  unfold FS.kindAt at h
  cases hl : fs.lookup p with
  | none => simp [hl] at h
  | some it =>
    cases it with
    | file b d => simp [hl, Item.kind] at h; simp [h]
    | dir b s => simp [hl, Item.kind] at h

theorem FS.fileAt_eq_some (fs : FS) (p : Path) (a : Attr) (c : Bytes) :
    fs.fileAt p = some (a, c) ↔ fs.kindAt p = some (Kind.file a c) := by
  unfold FS.fileAt FS.kindAt
  cases hl : fs.lookup p with
  | none => simp
  | some it => cases it <;> simp [Item.kind]

theorem Listing.put_nil_path (it : Item) (l : Listing) : l.put it [] = none := by
  cases l <;> rfl

theorem FS.put_ne_nil (fs fs' : FS) (p : Path) (it : Item) (h : fs.put p it = some fs') :
    p ≠ [] := by
  intro hp
  subst hp
  simp [FS.put, Listing.put_nil_path] at h

theorem FS.kindAt_put_file (fs fs' : FS) (p q : Path) (a : Attr) (c : Bytes)
    (h : fs.put p (Item.file a c) = some fs') (hd : fs.kindAt p ≠ some Kind.dir) :
    fs'.kindAt q = if q = p then some (Kind.file a c) else fs.kindAt q := by
  have hp := FS.put_ne_nil fs fs' p _ h
  simp only [FS.put, Option.map_eq_some'] at h
  obtain ⟨l', hl, rfl⟩ := h
  match p, hp, hl, hd with
  | n :: ps, _, hl, hd =>
    have := Listing.kindAt_after_put fs.entries l' (n :: ps) q a c hl hd
    match q with
    | [] => simp [FS.kindAt_root]
    | m :: qs => simpa [FS.kindAt_cons] using this

theorem Listing.put_of_lookup (it : Item) (l : Listing) : ∀ (p : Path) (x : Item),
    l.lookup p = some x → (l.put it p).isSome = true := by
  induction l with
  | nil => intro p x h; simp [Listing.lookup] at h
  | file name b c0 rest ih =>
    intro p x h
    match p, h with
    | n :: ps, h =>
      by_cases hn : n = name
      · subst hn
        match ps, h with
        | [], _ => simp [Listing.put]
        | k :: ks, h => simp [Listing.lookup] at h
      · simp only [Listing.lookup, hn, if_false] at h
        have hr := ih (n :: ps) x h
        simpa [Listing.put, hn] using hr
  | dir name b sub rest ihs ihr =>
    intro p x h
    match p, h with
    | n :: ps, h =>
      by_cases hn : n = name
      · subst hn
        match ps, h with
        | [], _ => simp [Listing.put]
        | k :: ks, h =>
          simp only [Listing.lookup, if_true] at h
          have hs := ihs (k :: ks) x h
          simpa [Listing.put] using hs
      · simp only [Listing.lookup, hn, if_false] at h
        have hr := ihr (n :: ps) x h
        simpa [Listing.put, hn] using hr

theorem FS.put_of_file (fs : FS) (p : Path) (a : Attr) (c : Bytes) (it : Item)
    (h : fs.kindAt p = some (Kind.file a c)) : ∃ fs', fs.put p it = some fs' := by
  have hl := FS.lookup_of_kind_file fs p a c h
  match p, hl with
  | n :: ps, hl =>
    have h' := Listing.put_of_lookup it fs.entries (n :: ps) _ hl
    obtain ⟨l', hl'⟩ := Option.isSome_iff_exists.mp h'
    exact ⟨FS.mk fs.cwd l', by simp [FS.put, hl']⟩

/-- Storing below an existing directory succeeds. -/
theorem Listing.put_below_dir (it : Item) (l : Listing) : ∀ (ps : Path) (n : String),
    (ps = [] ∨ l.kindAt ps = some Kind.dir) → (l.put it (ps ++ [n])).isSome = true := by
  induction l with
  | nil =>
    intro ps n h
    rcases h with h | h
    · subst h; simp [Listing.put]
    · simp [Listing.kindAt, Listing.lookup] at h
  | file name b c0 rest ih =>
    intro ps n h
    match ps, h with
    | [], _ =>
      by_cases hn : n = name
      · simp [Listing.put, hn]
      · have hr := ih [] n (Or.inl rfl)
        simpa [Listing.put, hn] using hr
    | k :: ks, h =>
      rcases h with h | h
      · simp at h
      by_cases hk : k = name
      · subst hk
        cases ks <;> simp [Listing.kindAt, Listing.lookup, Item.kind] at h
      · have h' : rest.kindAt (k :: ks) = some Kind.dir := by
          simpa [Listing.kindAt, Listing.lookup, hk] using h
        have hr := ih (k :: ks) n (Or.inr h')
        simpa [Listing.put, hk] using hr
  | dir name b sub rest ihs ihr =>
    intro ps n h
    match ps, h with
    | [], _ =>
      by_cases hn : n = name
      · simp [Listing.put, hn]
      · have hr := ihr [] n (Or.inl rfl)
        simpa [Listing.put, hn] using hr
    | k :: ks, h =>
      rcases h with h | h
      · simp at h
      by_cases hk : k = name
      · subst hk
        have h' : ks = [] ∨ sub.kindAt ks = some Kind.dir := by
          cases ks with
          | nil => exact Or.inl rfl
          | cons k2 ks2 => right; simpa [Listing.kindAt, Listing.lookup] using h
        have hs := ihs ks n h'
        cases ks with
        | nil => simpa [Listing.put] using hs
        | cons k2 ks2 => simpa [Listing.put] using hs
      · have h' : rest.kindAt (k :: ks) = some Kind.dir := by
          simpa [Listing.kindAt, Listing.lookup, hk] using h
        have hr := ihr (k :: ks) n (Or.inr h')
        simpa [Listing.put, hk] using hr

theorem FS.put_of_parent (fs : FS) (p : Path) (it : Item) (hp : p ≠ [])
    (h : fs.kindAt p.dropLast = some Kind.dir) : ∃ fs', fs.put p it = some fs' := by
  have hsplit : p = p.dropLast ++ [p.getLast hp] := (List.dropLast_append_getLast hp).symm
  have hpar : p.dropLast = [] ∨ fs.entries.kindAt p.dropLast = some Kind.dir := by
    cases hq : p.dropLast with
    | nil => exact Or.inl rfl
    | cons k ks => right; rw [hq] at h; simpa [FS.kindAt_cons] using h
  have hl := Listing.put_below_dir it fs.entries p.dropLast (p.getLast hp) hpar
  rw [← hsplit] at hl
  obtain ⟨l', hl'⟩ := Option.isSome_iff_exists.mp hl
  exact ⟨FS.mk fs.cwd l', by simp [FS.put, hl']⟩

/-! ## Filesystem: the operations of package os -/

theorem FS.kindAt_of_not_dir_file (fs : FS) (p : Path) (a : Attr) (c : Bytes)
    (h : fs.kindAt p = some (Kind.file a c)) : fs.kindAt p ≠ some Kind.dir := by
  rw [h]; simp

/-- Opening an existing regular file that its owner may read and write. -/
theorem FS.openFile_existing (fs : FS) (p : Path) (a : Attr) (c : Bytes)
    (create trunc : Bool) (mode : Nat) (now : Time)
    (h : fs.kindAt p = some (Kind.file a c)) (ho : (a.canRead && a.ownerWrite) = true) :
    ∃ fs1, fs.openFile p create trunc mode now = Except.ok fs1 ∧
      ∀ q, fs1.kindAt q = if q = p then
          some (Kind.file (if trunc then Attr.mk a.mode now a.accessTime a.statOk a.openOk else a)
            (if trunc then [] else c))
        else fs.kindAt q := by
  have hl := FS.lookup_of_kind_file fs p a c h
  cases trunc with
  | false =>
    refine ⟨fs, ?_, ?_⟩
    · unfold FS.openFile
      rw [hl]
      simp only [ho, ↓reduceIte, Bool.false_eq_true]
    · intro q
      by_cases hq : q = p
      · subst hq; simp [h]
      · simp [hq]
  | true =>
    obtain ⟨fs1, h1⟩ := FS.put_of_file fs p a c
      (Item.file (Attr.mk a.mode now a.accessTime a.statOk a.openOk) []) h
    refine ⟨fs1, ?_, ?_⟩
    · unfold FS.openFile
      rw [hl]
      simp only [ho, ↓reduceIte, h1]
    · intro q
      simpa using FS.kindAt_put_file fs fs1 p q _ _ h1 (FS.kindAt_of_not_dir_file fs p a c h)

/-- Creating a missing file below an existing directory. -/
theorem FS.openFile_missing (fs : FS) (p : Path) (trunc : Bool) (mode : Nat) (now : Time)
    (h : fs.kindAt p = none) (hpar : fs.kindAt p.dropLast = some Kind.dir) :
    ∃ fs1, fs.openFile p true trunc mode now = Except.ok fs1 ∧
      ∀ q, fs1.kindAt q = if q = p then some (Kind.file (Attr.fresh mode now) [])
        else fs.kindAt q := by
  have hp : p ≠ [] := by
    intro hp; subst hp; simp [FS.kindAt_root] at h
  have hl : fs.lookup p = none := by
    simpa [FS.kindAt] using h
  obtain ⟨fs1, h1⟩ := FS.put_of_parent fs p (Item.file (Attr.fresh mode now) []) hp hpar
  refine ⟨fs1, by simp [FS.openFile, hl, h1], ?_⟩
  intro q
  exact FS.kindAt_put_file fs fs1 p q _ _ h1 (by rw [h]; simp)

/-- What a successful OpenFile leaves: a regular file at the path, empty when
it was created or truncated, and every other path as before. -/
theorem FS.openFile_ok (fs fs1 : FS) (p : Path) (create trunc : Bool) (mode : Nat) (now : Time)
    (h : fs.openFile p create trunc mode now = Except.ok fs1) :
    ∃ a c, (∀ q, fs1.kindAt q = if q = p then some (Kind.file a c) else fs.kindAt q) ∧
      a.openOk = true ∧
      (trunc = true → c = []) ∧
      (fs.kindAt p = none → c = []) ∧
      (∀ a0 c0, fs.kindAt p = some (Kind.file a0 c0) → trunc = false → c = c0) := by
  cases hl : fs.lookup p with
  | none =>
    have hk : fs.kindAt p = none := by simp [FS.kindAt, hl]
    cases create with
    | false => simp [FS.openFile, hl] at h
    | true =>
      cases hput : fs.put p (Item.file (Attr.fresh mode now) []) with
      | none => simp [FS.openFile, hl, hput] at h
      | some fs2 =>
        simp [FS.openFile, hl, hput] at h
        subst h
        refine ⟨Attr.fresh mode now, [], ?_, rfl, fun _ => rfl, fun _ => rfl, ?_⟩
        · intro q
          exact FS.kindAt_put_file fs fs2 p q _ _ hput (by rw [hk]; simp)
        · intro a0 c0 h0; rw [hk] at h0; simp at h0
  | some it =>
    cases it with
    | dir b s => simp [FS.openFile, hl] at h
    | file a c =>
      have hk : fs.kindAt p = some (Kind.file a c) := by simp [FS.kindAt, hl, Item.kind]
      cases ho : (a.canRead && a.ownerWrite) with
      | false =>
        unfold FS.openFile at h
        rw [hl] at h
        simp only [ho, Bool.false_eq_true, ↓reduceIte] at h
        cases h
      | true =>
        obtain ⟨fs2, h2, hq⟩ := FS.openFile_existing fs p a c create trunc mode now hk ho
        rw [h2] at h
        cases h
        have hopen : a.openOk = true := by
          simp only [Attr.canRead, Bool.and_eq_true] at ho
          exact ho.1.1
        refine ⟨_, _, hq, ?_, ?_, ?_, ?_⟩
        · cases trunc <;> simp [hopen]
        · intro ht; simp [ht]
        · intro hn; rw [hk] at hn; simp at hn
        · intro a0 c0 h0 ht
          rw [hk] at h0
          simp at h0
          simp [ht, h0.2]

/-- Writing to an open regular file from offset 0. -/
theorem FS.kindAt_write (fs : FS) (p : Path) (a : Attr) (c data : Bytes) (now : Time)
    (h : fs.kindAt p = some (Kind.file a c)) (q : Path) :
    (fs.write p data now).kindAt q = if q = p then
        some (Kind.file (Attr.mk a.mode now a.accessTime a.statOk a.openOk)
          (data ++ c.drop data.length))
      else fs.kindAt q := by
  have hl := FS.lookup_of_kind_file fs p a c h
  obtain ⟨fs1, h1⟩ := FS.put_of_file fs p a c
    (Item.file (Attr.mk a.mode now a.accessTime a.statOk a.openOk)
      (data ++ c.drop data.length)) h
  have : fs.write p data now = fs1 := by simp [FS.write, hl, h1]
  rw [this]
  exact FS.kindAt_put_file fs fs1 p q _ _ h1 (FS.kindAt_of_not_dir_file fs p a c h)

/-- Setting the times of a regular file. -/
theorem FS.chtimes_file (fs : FS) (p : Path) (a : Attr) (c : Bytes) (atime : Option Time)
    (mtime : Time) (h : fs.kindAt p = some (Kind.file a c)) :
    ∃ fs1, fs.chtimes p atime mtime = Except.ok fs1 ∧
      ∀ q, fs1.kindAt q = if q = p then
          some (Kind.file (Attr.mk a.mode mtime (atime.getD a.accessTime) a.statOk a.openOk) c)
        else fs.kindAt q := by
  have hl := FS.lookup_of_kind_file fs p a c h
  obtain ⟨fs1, h1⟩ := FS.put_of_file fs p a c
    (Item.file (Attr.mk a.mode mtime (atime.getD a.accessTime) a.statOk a.openOk) c) h
  refine ⟨fs1, by simp [FS.chtimes, hl, Item.attr, Item.setAttr, h1], ?_⟩
  intro q
  exact FS.kindAt_put_file fs fs1 p q _ _ h1 (FS.kindAt_of_not_dir_file fs p a c h)

/-- Setting the permission bits of a regular file. -/
theorem FS.chmod_file (fs : FS) (p : Path) (a : Attr) (c : Bytes) (mode : Nat)
    (h : fs.kindAt p = some (Kind.file a c)) :
    ∃ fs1, fs.chmod p mode = Except.ok fs1 ∧
      ∀ q, fs1.kindAt q = if q = p then
          some (Kind.file (Attr.mk mode a.modTime a.accessTime a.statOk a.openOk) c)
        else fs.kindAt q := by
  have hl := FS.lookup_of_kind_file fs p a c h
  obtain ⟨fs1, h1⟩ := FS.put_of_file fs p a c
    (Item.file (Attr.mk mode a.modTime a.accessTime a.statOk a.openOk) c) h
  refine ⟨fs1, by simp [FS.chmod, hl, Item.attr, Item.setAttr, h1], ?_⟩
  intro q
  exact FS.kindAt_put_file fs fs1 p q _ _ h1 (FS.kindAt_of_not_dir_file fs p a c h)

/-- What MkdirAll leaves when it succeeds: what was there, and directories at
the missing non-empty initial segments of the path. -/
theorem FS.kindAt_mkdirAll (fs fs1 : FS) (p : Path) (mode : Nat) (now : Time)
    (h : fs.mkdirAll p mode now = Except.ok fs1) (q : Path) :
    fs1.kindAt q = (fs.kindAt q).or (if q ≠ [] ∧ q <+: p then some Kind.dir else none) := by
  unfold FS.mkdirAll at h
  cases hm : fs.entries.mkdirAll (Attr.fresh mode now) p with
  | error e => simp [hm, Except.map] at h
  | ok l' =>
    simp [hm, Except.map] at h
    subst h
    match q with
    | [] => simp [FS.kindAt_root]
    | m :: qs =>
      simpa [FS.kindAt_cons] using
        Listing.kindAt_after_mkdirAll (Attr.fresh mode now) fs.entries l' p (m :: qs) hm

/-! ## Unzip -/

/-- One regular-file record, restored without a panic: the target holds the
content and the modification time of the record, every entry that existed
elsewhere is as before, and what is new elsewhere is a directory above the
target. -/
theorem unzipEntry_reg (now : Time) (r : Record) (fs fs1 : FS)
    (hr : r.header.typeflag = TypeFlag.reg) (h : unzipEntry now r fs = Outcome.ok fs1) :
    (∃ a, fs1.kindAt r.header.name = some (Kind.file a r.content) ∧
      a.modTime = r.header.modTime ∧ a.openOk = true) ∧
    (∀ q, q ≠ r.header.name → ∀ k, fs.kindAt q = some k → fs1.kindAt q = some k) ∧
    (∀ q, q ≠ r.header.name → ∀ k, fs1.kindAt q = some k →
      fs.kindAt q = some k ∨ (k = Kind.dir ∧ q <+: r.header.name.dropLast)) := by
  -- the filesystem after MkdirAll, whether it failed or not
  obtain ⟨fs0, hfs0, hpres, hnew⟩ : ∃ fs0,
      (match fs.mkdirAll r.header.name.dropLast 0o755 now with
        | Except.ok fs1 => fs1
        | Except.error _ => fs) = fs0 ∧
      (∀ q k, fs.kindAt q = some k → fs0.kindAt q = some k) ∧
      (∀ q k, fs0.kindAt q = some k →
        fs.kindAt q = some k ∨ (k = Kind.dir ∧ q <+: r.header.name.dropLast)) := by
    cases hm : fs.mkdirAll r.header.name.dropLast 0o755 now with
    | error e => exact ⟨fs, rfl, fun _ _ hk => hk, fun _ _ hk => Or.inl hk⟩
    | ok fsm =>
      refine ⟨fsm, rfl, ?_, ?_⟩
      · intro q k hk
        rw [FS.kindAt_mkdirAll fs fsm _ _ _ hm q, hk]; rfl
      · intro q k hk
        rw [FS.kindAt_mkdirAll fs fsm _ _ _ hm q] at hk
        cases hq : fs.kindAt q with
        | some k0 => rw [hq] at hk; left; simpa using hk
        | none =>
          rw [hq] at hk
          right
          by_cases hc : q ≠ [] ∧ q <+: r.header.name.dropLast
          · simp [hc] at hk
            exact ⟨hk.symm, hc.2⟩
          · simp [hc] at hk
  simp only [unzipEntry, unzipWrite, hr, if_true] at h
  rw [hfs0] at h
  cases ho : fs0.openFile r.header.name true true r.header.mode now with
  | error e => simp [ho] at h
  | ok fs2 =>
    simp only [ho] at h
    obtain ⟨a2, c2, hq2, hopen2, htr, -, -⟩ := FS.openFile_ok fs0 fs2 _ _ _ _ _ ho
    have hc2 : c2 = [] := htr rfl
    subst hc2
    have hk2 : fs2.kindAt r.header.name = some (Kind.file a2 []) := by
      simpa using hq2 r.header.name
    have hw := FS.kindAt_write fs2 r.header.name a2 [] r.content now hk2
    have hk3 := hw r.header.name
    simp only [if_true, List.drop_nil, List.append_nil] at hk3
    obtain ⟨fs4, h4, hq4⟩ := FS.chtimes_file (fs2.write r.header.name r.content now)
      r.header.name _ _ r.header.accessTime r.header.modTime hk3
    rw [h4] at h
    simp at h
    subst h
    have hother : ∀ q, q ≠ r.header.name → fs4.kindAt q = fs0.kindAt q := by
      intro q hq
      rw [hq4 q, if_neg hq, hw q, if_neg hq, hq2 q, if_neg hq]
    have hk4 := hq4 r.header.name
    simp only [if_true] at hk4
    refine ⟨⟨_, hk4, rfl, hopen2⟩, ?_, ?_⟩
    · intro q hq k hk
      rw [hother q hq]; exact hpres q k hk
    · intro q hq k hk
      rw [hother q hq] at hk; exact hnew q k hk

/-- A record that is not a regular file leaves the filesystem as it is. -/
theorem unzipEntry_not_reg (now : Time) (r : Record) (fs : FS)
    (hr : r.header.typeflag ≠ TypeFlag.reg) : unzipEntry now r fs = Outcome.ok fs := by
  simp [unzipEntry, hr]

theorem lastReg_nil (p : Path) : lastReg [] p = none := rfl

theorem lastReg_cons (r : Record) (rs : List Record) (p : Path) :
    lastReg (r :: rs) p = (lastReg rs p).or
      (if r.header.typeflag = TypeFlag.reg ∧ r.header.name = p then some r else none) := by
  unfold lastReg
  by_cases hc : r.header.typeflag = TypeFlag.reg ∧ r.header.name = p
  · rw [List.filter_cons_of_pos (by simpa using hc)]
    rw [List.getLast?_cons]
    cases hl : (List.filter (fun r => decide (r.header.typeflag = TypeFlag.reg ∧ r.header.name = p)) rs).getLast? with
    | none => simp [hc]
    | some x => simp
  · rw [List.filter_cons_of_neg (by simpa using hc)]
    simp [hc]

theorem lastReg_mem (recs : List Record) (p : Path) (r : Record) (h : lastReg recs p = some r) :
    r ∈ recs ∧ r.header.typeflag = TypeFlag.reg ∧ r.header.name = p := by
  unfold lastReg at h
  have hm := List.mem_of_getLast?_eq_some h
  simpa [List.mem_filter] using hm

theorem lastReg_isSome (recs : List Record) (r : Record) (hm : r ∈ recs)
    (hr : r.header.typeflag = TypeFlag.reg) : ∃ x, lastReg recs r.header.name = some x := by
  unfold lastReg
  have hmem : r ∈ recs.filter
      (fun x => decide (x.header.typeflag = TypeFlag.reg ∧ x.header.name = r.header.name)) := by
    simp [List.mem_filter, hm, hr]
  cases hl : (recs.filter
      (fun x => decide (x.header.typeflag = TypeFlag.reg ∧ x.header.name = r.header.name))).getLast? with
  | none =>
    rw [List.getLast?_eq_none_iff] at hl
    rw [hl] at hmem
    simp at hmem
  | some x => exact ⟨x, rfl⟩

/-- The loop of Unzip, when it ends without error: every path under which the
stream holds a regular file has the content and modification time of the last
such record, and a regular file at any other path is as before. -/
theorem unzipLoop_ok (now : Time) (ending : StreamEnd) (recs : List Record) :
    ∀ (fs fs' : FS), unzipLoop now ending recs fs = Outcome.ok fs' →
    (∀ p r, lastReg recs p = some r →
      ∃ a, fs'.kindAt p = some (Kind.file a r.content) ∧ a.modTime = r.header.modTime) ∧
    (∀ p, lastReg recs p = none → ∀ k, fs.kindAt p = some k → fs'.kindAt p = some k) := by
  induction recs with
  | nil =>
    intro fs fs' h
    have hfs : fs' = fs := by
      cases ending with
      | eof => simp [unzipLoop] at h; exact h.symm
      | badHeader => simp [unzipLoop] at h
      | badContent hd got =>
        simp only [unzipLoop] at h
        split at h
        · split at h <;> simp_all
        · simp at h
    subst hfs
    exact ⟨fun p r hl => by simp [lastReg_nil] at hl, fun p _ k hk => hk⟩
  | cons r rs ih =>
    intro fs fs' h
    simp only [unzipLoop] at h
    cases he : unzipEntry now r fs with
    | error e f => simp [he] at h
    | panic e f => simp [he] at h
    | ok fs1 =>
      simp only [he] at h
      obtain ⟨ih1, ih2⟩ := ih fs1 fs' h
      by_cases hr : r.header.typeflag = TypeFlag.reg
      · obtain ⟨⟨a, hka, hma, -⟩, hpres, -⟩ := unzipEntry_reg now r fs fs1 hr he
        constructor
        · intro p x hl
          rw [lastReg_cons] at hl
          cases hrs : lastReg rs p with
          | some y =>
            rw [hrs] at hl
            simp at hl
            subst hl
            exact ih1 p y hrs
          | none =>
            rw [hrs] at hl
            by_cases hc : r.header.typeflag = TypeFlag.reg ∧ r.header.name = p
            · simp [hc] at hl
              subst hl
              obtain ⟨-, hp⟩ := hc
              subst hp
              exact ⟨a, ih2 _ hrs _ hka, hma⟩
            · simp [hc] at hl
        · intro p hl k hk
          rw [lastReg_cons] at hl
          cases hrs : lastReg rs p with
          | some y => rw [hrs] at hl; simp at hl
          | none =>
            rw [hrs] at hl
            have hne : p ≠ r.header.name := by
              intro hp
              simp [hr, hp] at hl
            exact ih2 p hrs k (hpres p hne k hk)
      · rw [unzipEntry_not_reg now r fs hr] at he
        cases he
        constructor
        · intro p x hl
          rw [lastReg_cons] at hl
          simp [hr] at hl
          exact ih1 p x hl
        · intro p hl k hk
          rw [lastReg_cons] at hl
          simp [hr] at hl
          exact ih2 p hl k hk

/-- C5. Restore overwrites existing targets: when Unzip ends without error,
then for every regular-file record of the stream, whatever the filesystem
held before (a longer file at the target included), the file at the path of
the record holds exactly the content of the last regular-file record of the
stream with that path, which is the record itself when no other has its path. -/
theorem Unzip_overwrites_targets (env : Env) (fs fs' : FS) (filename : Path) (a : Attr)
    (bytes : Bytes) (hsrc : fs.fileAt filename = some (a, bytes))
    (hok : Unzip env fs filename = Outcome.ok fs') (r : Record)
    (hmem : r ∈ (env.codec.decode bytes).records) (hreg : r.header.typeflag = TypeFlag.reg) :
    ∃ last a', lastReg (env.codec.decode bytes).records r.header.name = some last ∧
      fs'.fileAt r.header.name = some (a', last.content) ∧
      ((∀ r2 ∈ (env.codec.decode bytes).records, r2.header.typeflag = TypeFlag.reg →
          r2.header.name = r.header.name → r2 = r) → last = r) := by
  obtain ⟨last, hlast⟩ := lastReg_isSome _ r hmem hreg
  have hloop : unzipLoop env.now (env.codec.decode bytes).ending
      (env.codec.decode bytes).records fs = Outcome.ok fs' := by
    unfold Unzip at hok
    rw [hsrc] at hok
    simp only at hok
    split at hok
    · exact hok
    · simp at hok
  obtain ⟨h1, -⟩ := unzipLoop_ok _ _ _ fs fs' hloop
  obtain ⟨a', hk, -⟩ := h1 _ _ hlast
  refine ⟨last, a', hlast, (FS.fileAt_eq_some _ _ _ _).mpr hk, ?_⟩
  intro huniq
  obtain ⟨hm, hr, hn⟩ := lastReg_mem _ _ _ hlast
  exact huniq last hm hr hn

/-! ## Zip: writing the destination file -/

theorem wrapInt64_lt (x : Int) : wrapInt64 x < 2 ^ 63 := by
  unfold wrapInt64
  omega

theorem getReadableBytes_sizeAt (fs : FS) (p : Path) :
    ∃ r, getReadableBytes (fs.sizeAt p) = some r := by
  apply getReadableBytes_isSome
  unfold FS.sizeAt
  cases fs.fileAt p with
  | none => simp
  | some x => exact wrapInt64_lt _

/-- Zip after the stream is complete, when the destination exists as a
regular file that its owner may read and write: the archive is written over the start of the old
content, and what the old content has beyond the length of the archive stays. -/
theorem Zip_over_existing (env : Env) (fs : FS) (filename : Path) (artifacts : List String)
    (stream : List Record) (a : Attr) (old : Bytes)
    (hs : zipStream env fs artifacts = Except.ok stream)
    (hk : fs.kindAt filename = some (Kind.file a old))
    (ho : (a.canRead && a.ownerWrite) = true) :
    ∃ fs', Zip env fs filename artifacts = Outcome.ok fs' ∧
      ∀ q, fs'.kindAt q = if q = filename then
          some (Kind.file (Attr.mk 0o777 env.now a.accessTime a.statOk a.openOk)
            (env.codec.encode stream ++ old.drop (env.codec.encode stream).length))
        else fs.kindAt q := by
  obtain ⟨fs1, h1, hq1⟩ := FS.openFile_existing fs filename a old true false 0o600 env.now hk ho
  have hk1 : fs1.kindAt filename = some (Kind.file a old) := by simpa using hq1 filename
  have hw := FS.kindAt_write fs1 filename a old (env.codec.encode stream) env.now hk1
  have hk2 := hw filename
  simp only [if_true] at hk2
  obtain ⟨r, hr⟩ := getReadableBytes_sizeAt (fs1.write filename (env.codec.encode stream) env.now)
    filename
  obtain ⟨fs3, h3, hq3⟩ := FS.chmod_file _ filename _ _ 0o777 hk2
  refine ⟨fs3, by simp [Zip, hs, h1, hr, h3], ?_⟩
  intro q
  by_cases hq : q = filename
  · subst hq; simpa using hq3 q
  · rw [hq3 q, if_neg hq, hw q, if_neg hq, hq1 q, if_neg hq, if_neg hq]

/-- Zip after the stream is complete, when the destination does not exist and
its parent directory does: the destination holds exactly the archive. -/
theorem Zip_creates (env : Env) (fs : FS) (filename : Path) (artifacts : List String)
    (stream : List Record)
    (hs : zipStream env fs artifacts = Except.ok stream)
    (hk : fs.kindAt filename = none) (hpar : fs.kindAt filename.dropLast = some Kind.dir) :
    ∃ fs', Zip env fs filename artifacts = Outcome.ok fs' ∧
      ∀ q, fs'.kindAt q = if q = filename then
          some (Kind.file (Attr.mk 0o777 env.now env.now true true) (env.codec.encode stream))
        else fs.kindAt q := by
  obtain ⟨fs1, h1, hq1⟩ := FS.openFile_missing fs filename false 0o600 env.now hk hpar
  have hk1 : fs1.kindAt filename = some (Kind.file (Attr.fresh 0o600 env.now) []) := by
    simpa using hq1 filename
  have hw := FS.kindAt_write fs1 filename _ [] (env.codec.encode stream) env.now hk1
  have hk2 := hw filename
  simp only [if_true, List.drop_nil, List.append_nil] at hk2
  obtain ⟨r, hr⟩ := getReadableBytes_sizeAt (fs1.write filename (env.codec.encode stream) env.now)
    filename
  obtain ⟨fs3, h3, hq3⟩ := FS.chmod_file _ filename _ _ 0o777 hk2
  refine ⟨fs3, by simp [Zip, hs, h1, hr, h3], ?_⟩
  intro q
  by_cases hq : q = filename
  · subst hq; simpa [Attr.fresh] using hq3 q
  · rw [hq3 q, if_neg hq, hw q, if_neg hq, hq1 q, if_neg hq, if_neg hq]

/-! ## Zip: the walk over a failure-free tree -/

theorem appendToLast_concat (recs : List Record) (r : Record) (b : Bytes) :
    appendToLast (recs ++ [r]) b = recs ++ [Record.mk r.header (r.content ++ b)] := by
  induction recs with
  | nil => rfl
  | cons x xs ih =>
    cases xs with
    | nil => simp [appendToLast]
    | cons y ys =>
      have : appendToLast (x :: y :: (ys ++ [r])) b = x :: appendToLast (y :: (ys ++ [r])) b := rfl
      rw [List.cons_append, List.cons_append, this]
      rw [List.cons_append] at ih
      rw [ih]
      rfl

/-- The callback on an entry that can be read, from a writer in good state:
exactly the record of the entry is appended. -/
theorem walkFn_healthy (recs : List Record) (p : Path) (it : Item)
    (h : it.attr.canRead = true) :
    walkFn (TarWriter.mk recs 0 none) p (some it) =
      (TarWriter.mk (recs ++ [entryRecord p it]) 0 none, none) := by
  cases it with
  | dir a sub =>
    simp [walkFn, fileInfoHeader, TarWriter.writeHeader, entryRecord]
  | file a c =>
    simp only [Item.attr] at h
    cases c with
    | nil =>
      simp [walkFn, fileInfoHeader, TarWriter.writeHeader, entryRecord, h, TarWriter.copy]
    | cons x xs =>
      simp [walkFn, fileInfoHeader, TarWriter.writeHeader, entryRecord, h, TarWriter.copy,
        TarWriter.write, appendToLast_concat]

theorem Attr.dirOk_iff (a : Attr) :
    a.dirOk = true ↔ a.statOk = true ∧ a.canRead = true ∧ a.ownerSearch = true ∧
      a.ownerWrite = true := by
  simp [Attr.dirOk, and_assoc]

/-- The walk below a directory of a failure-free tree appends the pre-order
enumeration and leaves the writer in good state. -/
theorem walkList_healthy (l : Listing) : ∀ (base : Path) (recs : List Record),
    l.healthy = true →
    walkList base l (TarWriter.mk recs 0 none) =
      (TarWriter.mk (recs ++ preorderList base l) 0 none, none) := by
  induction l with
  | nil => intro base recs _; simp [walkList, preorderList]
  | file name a c rest ih =>
    intro base recs h
    simp only [Listing.healthy, Bool.and_eq_true] at h
    obtain ⟨⟨hs, ho⟩, hr⟩ := h
    simp only [walkList, hs, if_true]
    rw [walkFn_healthy recs _ _ (by simpa [Item.attr] using ho)]
    simp only
    rw [ih base _ hr]
    simp [preorderList]
  | dir name a sub rest ihs ihr =>
    intro base recs h
    simp only [Listing.healthy, Bool.and_eq_true, Attr.dirOk_iff] at h
    obtain ⟨⟨⟨hs, ho, -, -⟩, hsub⟩, hr⟩ := h
    simp only [walkList, hs, ho, if_true]
    rw [walkFn_healthy recs _ _ (by simpa [Item.attr] using ho)]
    simp only
    rw [ihs _ _ hsub]
    simp only
    rw [ihr base _ hr]
    simp [preorderList]

theorem Listing.healthy_cons (n : String) (it : Item) (l : Listing) :
    (Listing.cons n it l).healthy = (it.healthy && l.healthy) := by
  cases it <;> simp [Listing.cons, Listing.healthy, Item.healthy]

theorem Listing.healthy_insert (n : String) (it : Item) (l : Listing) :
    (l.insert n it).healthy = (it.healthy && l.healthy) := by
  induction l with
  | nil => simp [Listing.insert, Listing.healthy_cons]
  | file m a c rest ih =>
    simp only [Listing.insert]
    split
    · simp [Listing.healthy_cons]
    · simp only [Listing.healthy, ih]
      cases it.healthy <;> cases rest.healthy <;> simp
  | dir m a s rest _ ih =>
    simp only [Listing.insert]
    split
    · simp [Listing.healthy_cons]
    · simp only [Listing.healthy, ih]
      cases it.healthy <;> cases rest.healthy <;> simp

theorem Listing.healthy_sortAll (l : Listing) : l.sortAll.healthy = l.healthy := by
  induction l with
  | nil => rfl
  | file m a c rest ih =>
    simp only [Listing.sortAll, Listing.healthy_insert, ih, Item.healthy, Listing.healthy]
  | dir m a s rest ihs ihr =>
    simp only [Listing.sortAll, Listing.healthy_insert, ihs, ihr, Item.healthy, Listing.healthy]

theorem Listing.healthy_of_lookup (l : Listing) : ∀ (p : Path) (it : Item),
    l.healthy = true → l.lookup p = some it → it.healthy = true := by
  induction l with
  | nil => intro p it _ h; simp [Listing.lookup] at h
  | file name a c rest ih =>
    intro p it hh h
    simp only [Listing.healthy, Bool.and_eq_true] at hh
    match p, h with
    | n :: ps, h =>
      by_cases hn : n = name
      · subst hn
        match ps, h with
        | [], h =>
          simp [Listing.lookup] at h
          subst h
          simp [Item.healthy, hh.1.1, hh.1.2]
        | k :: ks, h => simp [Listing.lookup] at h
      · simp only [Listing.lookup, hn, if_false] at h
        exact ih _ _ hh.2 h
  | dir name a sub rest ihs ihr =>
    intro p it hh h
    simp only [Listing.healthy, Bool.and_eq_true] at hh
    match p, h with
    | n :: ps, h =>
      by_cases hn : n = name
      · subst hn
        match ps, h with
        | [], h =>
          simp [Listing.lookup] at h
          subst h
          simp [Item.healthy, hh.1.1, hh.1.2]
        | k :: ks, h =>
          simp only [Listing.lookup, if_true] at h
          exact ihs _ _ hh.1.2 h
      · simp only [Listing.lookup, hn, if_false] at h
        exact ihr _ _ hh.2 h

theorem FS.lookup_healthy (fs : FS) (p : Path) (it : Item) (hh : fs.healthy = true)
    (h : fs.lookup p = some it) : it.healthy = true := by
  simp only [FS.healthy, Bool.and_eq_true] at hh
  match p, h with
  | [], h =>
    simp [FS.lookup] at h
    subst h
    simp [Item.healthy, hh.1, hh.2]
  | n :: ps, h => exact Listing.healthy_of_lookup _ _ _ hh.2 h

/-- Walking a root of a failure-free filesystem appends the pre-order
enumeration of the root and leaves the writer in good state. -/
theorem Walk_healthy (fs : FS) (root : Path) (recs : List Record) (hh : fs.healthy = true) :
    (Walk fs root (TarWriter.mk recs 0 none)).1 =
      TarWriter.mk (recs ++ preorder fs root) 0 none := by
  cases hl : fs.lookup root with
  | none =>
    simp [Walk, FS.lstat, hl, preorder, walkFn, fileInfoHeader]
  | some it =>
    have hit := FS.lookup_healthy fs root it hh hl
    cases it with
    | file a c =>
      simp only [Item.healthy, Bool.and_eq_true] at hit
      simp only [Walk, FS.lstat, hl, Item.attr, hit.1, if_true, preorder]
      rw [walkFn_healthy recs _ _ (by simpa [Item.attr] using hit.2)]
    | dir a sub =>
      simp only [Item.healthy, Bool.and_eq_true, Attr.dirOk_iff] at hit
      obtain ⟨⟨hs, ho, -, -⟩, hsub⟩ := hit
      simp only [Walk, FS.lstat, hl, Item.attr, hs, if_true, preorder]
      rw [walkFn_healthy recs _ _ (by simpa [Item.attr] using ho)]
      simp only [ho, if_true]
      rw [walkList_healthy sub.sortAll root _ (by rw [Listing.healthy_sortAll]; exact hsub)]
      simp

theorem zipMatches_healthy (fs : FS) (hh : fs.healthy = true) (ms : List Path) :
    ∀ recs : List Record, zipMatches fs ms (TarWriter.mk recs 0 none) =
      TarWriter.mk (recs ++ ms.flatMap (preorder fs)) 0 none := by
  induction ms with
  | nil => intro recs; simp [zipMatches]
  | cons m ms ih =>
    intro recs
    simp only [zipMatches]
    rw [Walk_healthy fs m recs hh, ih]
    simp

theorem zipPatterns_healthy (env : Env) (fs : FS) (hh : fs.healthy = true)
    (artifacts : List String) :
    (∀ p ∈ artifacts, ∃ ms, env.glob fs p = Except.ok ms) →
    ∀ recs : List Record, zipPatterns env fs artifacts (TarWriter.mk recs 0 none) =
      Except.ok (TarWriter.mk (recs ++ (zipRoots env fs artifacts).flatMap (preorder fs)) 0 none) := by
  induction artifacts with
  | nil => intro _ recs; simp [zipPatterns, zipRoots]
  | cons p ps ih =>
    intro hg recs
    obtain ⟨ms, hms⟩ := hg p (by simp)
    simp only [zipPatterns, hms]
    rw [zipMatches_healthy fs hh, ih (fun q hq => hg q (by simp [hq]))]
    simp [zipRoots, hms]

/-- On a failure-free filesystem, with well-formed patterns, the stream of Zip
is the pre-order enumeration of the matched roots, one after the other. -/
theorem zipStream_healthy (env : Env) (fs : FS) (hh : fs.healthy = true)
    (artifacts : List String) (hg : ∀ p ∈ artifacts, ∃ ms, env.glob fs p = Except.ok ms) :
    zipStream env fs artifacts =
      Except.ok ((zipRoots env fs artifacts).flatMap (preorder fs)) := by
  unfold zipStream TarWriter.new
  rw [zipPatterns_healthy env fs hh artifacts hg]
  simp [TarWriter.close]

/-! ## Claims on Zip and on Unzip -/

/-- C2 (the code departs from it). A stream whose only record is the directory
`d`, as Zip writes it for an empty directory, is restored without error and
without a directory at `d`: Unzip skips every record that is not a regular
file. -/
theorem Unzip_skips_directory_entry (arch : Bytes) (now : Time) :
    zipStream (Env.mk exGlob (exCodec arch [exDirRecord]) now) exEmptyDir ["d"]
      = Except.ok [exDirRecord] ∧
    Unzip (Env.mk exGlob (exCodec arch [exDirRecord]) now) (exOneFile "arc" arch) ["arc"]
      = Outcome.ok (exOneFile "arc" arch) ∧
    (exOneFile "arc" arch).isDirAt ["d"] = false := by
  refine ⟨rfl, rfl, rfl⟩

/-- C3 (the code departs from it). In a directory `d` whose entry `x` cannot be
examined, the callback returns an error for `x` and the walk of `d` ends with
it, yet Zip drops what the walk returns: the stream is complete without a
record for `x`, and Zip returns nil. -/
theorem Zip_ok_with_failed_entry (codec : Codec) (now : Time) :
    exBroken.fileAt ["d", "x"] = some (exNoStat, [1, 2]) ∧
    (Walk exBroken ["d"] TarWriter.new).2 = some Err.nilFileInfo ∧
    zipStream (Env.mk exGlob codec now) exBroken ["d"] = Except.ok [exDirRecord] ∧
    ∃ fs', Zip (Env.mk exGlob codec now) exBroken ["out"] ["d"] = Outcome.ok fs' := by
  refine ⟨rfl, rfl, rfl, ?_⟩
  obtain ⟨fs', h, -⟩ := Zip_creates (Env.mk exGlob codec now) exBroken ["out"] ["d"]
    [exDirRecord] rfl rfl rfl
  exact ⟨fs', h⟩

/-- C4 (the code departs from it). When the destination already holds a file
one byte longer than the archive, Zip returns nil and the destination holds
the archive followed by the last byte of the old file: it is opened without
O_TRUNC. -/
theorem Zip_keeps_tail_of_old_destination (env : Env) :
    zipStream env (exOneFile "out" (env.codec.encode [] ++ [7])) [] = Except.ok [] ∧
    ∃ fs' a, Zip env (exOneFile "out" (env.codec.encode [] ++ [7])) ["out"] [] = Outcome.ok fs' ∧
      fs'.fileAt ["out"] = some (a, env.codec.encode [] ++ [7]) ∧
      env.codec.encode [] ++ [7] ≠ env.codec.encode [] := by
  refine ⟨rfl, ?_⟩
  obtain ⟨fs', h, hq⟩ := Zip_over_existing env (exOneFile "out" (env.codec.encode [] ++ [7]))
    ["out"] [] [] exAttr (env.codec.encode [] ++ [7]) rfl rfl rfl
  refine ⟨fs', Attr.mk 0o777 env.now 7 true true, h, ?_, by simp⟩
  rw [FS.fileAt_eq_some]
  have := hq ["out"]
  simpa [exAttr] using this

/-- C7, as stated, fails: listing twice a pattern that matches the regular
file `a` puts the record of `a` twice in the stream. -/
theorem zipStream_repeats_root :
    zipStream (Env.mk exGlob (exCodec [] []) 0) (exOneFile "a" [1, 2]) ["a", "a"]
      = Except.ok [exFileRecord [1, 2], exFileRecord [1, 2]] ∧
    ¬ ([exFileRecord [1, 2], exFileRecord [1, 2]].map (fun r => r.header.name)).Nodup := by
  refine ⟨rfl, by decide⟩

theorem zipPatterns_error (env : Env) (fs : FS) (p : String) (e : Err)
    (hbad : env.glob fs p = Except.error e) (artifacts : List String) (hp : p ∈ artifacts) :
    ∀ tw, ∃ e', zipPatterns env fs artifacts tw = Except.error e' := by
  induction artifacts with
  | nil => simp at hp
  | cons q qs ih =>
    intro tw
    by_cases hq : q = p
    · subst hq
      exact ⟨e, by simp [zipPatterns, hbad]⟩
    · have hp' : p ∈ qs := by
        rcases List.mem_cons.mp hp with h | h
        · exact absurd h.symm hq
        · exact h
      cases hg : env.glob fs q with
      | error e2 => exact ⟨e2, by simp [zipPatterns, hg]⟩
      | ok ms =>
        obtain ⟨e', he'⟩ := ih hp' (zipMatches fs ms tw)
        exact ⟨e', by simp [zipPatterns, hg, he']⟩

/-- C8. A malformed pattern is rejected: when Glob fails on a pattern of the
list, Zip returns an error and leaves the filesystem as it found it, the
destination neither created nor written. -/
theorem Zip_rejects_malformed_pattern (env : Env) (fs : FS) (filename : Path)
    (artifacts : List String) (p : String) (e : Err) (hp : p ∈ artifacts)
    (hbad : env.glob fs p = Except.error e) :
    ∃ e', Zip env fs filename artifacts = Outcome.error e' fs := by
  obtain ⟨e', he'⟩ := zipPatterns_error env fs p e hbad artifacts hp TarWriter.new
  exact ⟨e', by simp [Zip, zipStream, he']⟩

/-- Witness of `Zip_rejects_malformed_pattern`: a well-formed pattern, then
the malformed one. -/
theorem Zip_rejects_malformed_pattern_witness :
    ∃ e', Zip (Env.mk exGlob (exCodec [] []) 0) (exOneFile "a" [1, 2]) ["out"] ["a", "["]
      = Outcome.error e' (exOneFile "a" [1, 2]) :=
  Zip_rejects_malformed_pattern (Env.mk exGlob (exCodec [] []) 0) (exOneFile "a" [1, 2]) ["out"]
    ["a", "["] "[" Err.badPattern (by decide) rfl

theorem zipPatterns_skip_empty (env : Env) (fs : FS) (p : String)
    (hp : env.glob fs p = Except.ok []) (l1 l2 : List String) :
    ∀ tw, zipPatterns env fs (l1 ++ p :: l2) tw = zipPatterns env fs (l1 ++ l2) tw := by
  induction l1 with
  | nil => intro tw; simp [zipPatterns, hp, zipMatches]
  | cons q qs ih =>
    intro tw
    cases hg : env.glob fs q with
    | error e2 => simp [zipPatterns, hg]
    | ok ms => simp [zipPatterns, hg, ih]

theorem zipPatterns_all_empty (env : Env) (fs : FS) (artifacts : List String)
    (h : ∀ q ∈ artifacts, env.glob fs q = Except.ok []) :
    ∀ tw, zipPatterns env fs artifacts tw = Except.ok tw := by
  induction artifacts with
  | nil => intro tw; rfl
  | cons q qs ih =>
    intro tw
    have hq := h q (by simp)
    simp only [zipPatterns, hq, zipMatches]
    exact ih (fun x hx => h x (by simp [hx])) tw

/-- C9. An empty match is not an error: a pattern without matches changes
neither the stream nor the outcome of Zip, which are those of the list
without it; and when no pattern of a list has a match, the stream has no
record and Zip, given a destination it can create, returns nil with the
archive of the empty stream as the destination. -/
theorem Zip_empty_match (env : Env) (fs : FS) (filename : Path) (p : String)
    (l1 l2 : List String) (hp : env.glob fs p = Except.ok []) :
    zipStream env fs (l1 ++ p :: l2) = zipStream env fs (l1 ++ l2) ∧
    Zip env fs filename (l1 ++ p :: l2) = Zip env fs filename (l1 ++ l2) ∧
    ∀ artifacts : List String, (∀ q ∈ artifacts, env.glob fs q = Except.ok []) →
      zipStream env fs artifacts = Except.ok [] ∧
      (fs.kindAt filename = none → fs.kindAt filename.dropLast = some Kind.dir →
        ∃ fs' a, Zip env fs filename artifacts = Outcome.ok fs' ∧
          fs'.fileAt filename = some (a, env.codec.encode [])) := by
  have h1 : zipStream env fs (l1 ++ p :: l2) = zipStream env fs (l1 ++ l2) := by
    simp [zipStream, zipPatterns_skip_empty env fs p hp l1 l2]
  refine ⟨h1, by simp [Zip, h1], ?_⟩
  intro artifacts hall
  have h3 : zipStream env fs artifacts = Except.ok [] := by
    simp [zipStream, zipPatterns_all_empty env fs artifacts hall, TarWriter.new, TarWriter.close]
  refine ⟨h3, ?_⟩
  intro hdest hpar
  obtain ⟨fs', hz, hq⟩ := Zip_creates env fs filename artifacts [] h3 hdest hpar
  refine ⟨fs', Attr.mk 0o777 env.now env.now true true, hz, ?_⟩
  rw [FS.fileAt_eq_some]
  simpa using hq filename

/-- Witness of `Zip_empty_match`: the pattern `b` matches nothing in a
directory that holds only `a`. -/
theorem Zip_empty_match_witness :
    exGlob (exOneFile "a" [1, 2]) "b" = Except.ok [] ∧
    zipStream (Env.mk exGlob (exCodec [5] []) 0) (exOneFile "a" [1, 2]) (["a"] ++ "b" :: [])
      = zipStream (Env.mk exGlob (exCodec [5] []) 0) (exOneFile "a" [1, 2]) (["a"] ++ []) ∧
    Zip (Env.mk exGlob (exCodec [5] []) 0) (exOneFile "a" [1, 2]) ["out"] (["a"] ++ "b" :: [])
      = Zip (Env.mk exGlob (exCodec [5] []) 0) (exOneFile "a" [1, 2]) ["out"] (["a"] ++ []) ∧
    zipStream (Env.mk exGlob (exCodec [5] []) 0) (exOneFile "a" [1, 2]) ["b", "c"]
      = Except.ok [] ∧
    ∃ fs' a, Zip (Env.mk exGlob (exCodec [5] []) 0) (exOneFile "a" [1, 2]) ["out"] ["b", "c"]
        = Outcome.ok fs' ∧ fs'.fileAt ["out"] = some (a, [5]) := by
  have h := Zip_empty_match (Env.mk exGlob (exCodec [5] []) 0) (exOneFile "a" [1, 2]) ["out"]
    "b" ["a"] [] rfl
  have hall : ∀ q ∈ ["b", "c"],
      (Env.mk exGlob (exCodec [5] []) 0).glob (exOneFile "a" [1, 2]) q = Except.ok [] := by
    intro q hq
    have : q = "b" ∨ q = "c" := by simpa using hq
    rcases this with h | h <;> subst h <;> rfl
  exact ⟨rfl, h.1, h.2.1, (h.2.2 _ hall).1, (h.2.2 _ hall).2 rfl rfl⟩

/-- Witness of `Unzip_overwrites_targets`: the archive holds the file `a`
twice, and the directory holds a longer file `a`. -/
theorem Unzip_overwrites_targets_witness :
    ∃ last a', lastReg (exRestoreEnv.codec.decode [0]).records (exFileRecord [1]).header.name
        = some last ∧
      (Unzip exRestoreEnv exRestoreFs ["arc"]).fs.fileAt (exFileRecord [1]).header.name
        = some (a', last.content) ∧
      ((∀ r2 ∈ (exRestoreEnv.codec.decode [0]).records, r2.header.typeflag = TypeFlag.reg →
          r2.header.name = (exFileRecord [1]).header.name → r2 = exFileRecord [1]) →
        last = exFileRecord [1]) :=
  Unzip_overwrites_targets exRestoreEnv exRestoreFs (Unzip exRestoreEnv exRestoreFs ["arc"]).fs
    ["arc"] exAttr [0] rfl rfl (exFileRecord [1]) (by decide) rfl

/-! ## Paths and the tree -/

theorem Listing.lookup_cons_ne_nil (l : Listing) (p : Path) (it : Item)
    (h : l.lookup p = some it) : p ≠ [] := by
  intro hp
  subst hp
  simp [Listing.lookup_nil_path] at h

/-- Below a directory, lookups continue in the listing of the directory. -/
theorem Listing.lookup_below (l : Listing) : ∀ (p q : Path) (a : Attr) (sub : Listing),
    l.lookup p = some (Item.dir a sub) → q ≠ [] → l.lookup (p ++ q) = sub.lookup q := by
  induction l with
  | nil => intro p q a sub h; simp [Listing.lookup] at h
  | file name b c rest ih =>
    intro p q a sub h hq
    match p, h with
    | n :: ps, h =>
      by_cases hn : n = name
      · subst hn
        match ps, h with
        | [], h => simp [Listing.lookup] at h
        | k :: ks, h => simp [Listing.lookup] at h
      · simp only [Listing.lookup, hn, if_false] at h
        have := ih (n :: ps) q a sub h hq
        simpa [Listing.lookup, hn] using this
  | dir name b s rest ihs ihr =>
    intro p q a sub h hq
    match p, h with
    | n :: ps, h =>
      by_cases hn : n = name
      · subst hn
        match ps, h with
        | [], h =>
          simp [Listing.lookup] at h
          obtain ⟨-, rfl⟩ := h
          match q, hq with
          | m :: qs, _ => simp [Listing.lookup]
        | k :: ks, h =>
          simp only [Listing.lookup, if_true] at h
          have := ihs (k :: ks) q a sub h hq
          simpa [Listing.lookup] using this
      · simp only [Listing.lookup, hn, if_false] at h
        have := ihr (n :: ps) q a sub h hq
        simpa [Listing.lookup, hn] using this

/-- What lies below a path lies in a directory at that path. -/
theorem Listing.lookup_cut (l : Listing) : ∀ (p q : Path) (it : Item),
    p ≠ [] → q ≠ [] → l.lookup (p ++ q) = some it →
    ∃ a sub, l.lookup p = some (Item.dir a sub) ∧ sub.lookup q = some it := by
  induction l with
  | nil => intro p q it _ _ h; simp [Listing.lookup] at h
  | file name b c rest ih =>
    intro p q it hp hq h
    match p, hp, q, hq, h with
    | n :: ps, _, m :: qs, _, h =>
      by_cases hn : n = name
      · subst hn
        cases ps <;> simp [Listing.lookup] at h
      · simp only [List.cons_append, Listing.lookup, hn, if_false] at h
        obtain ⟨a, sub, h1, h2⟩ := ih (n :: ps) (m :: qs) it (by simp) (by simp) h
        exact ⟨a, sub, by simpa [Listing.lookup, hn] using h1, h2⟩
  | dir name b s rest ihs ihr =>
    intro p q it hp hq h
    match p, hp, q, hq, h with
    | n :: ps, _, m :: qs, _, h =>
      by_cases hn : n = name
      · subst hn
        match ps, h with
        | [], h =>
          simp [Listing.lookup] at h
          exact ⟨b, s, by simp [Listing.lookup], h⟩
        | k :: ks, h =>
          simp only [List.cons_append, Listing.lookup, if_true] at h
          obtain ⟨a, sub, h1, h2⟩ := ihs (k :: ks) (m :: qs) it (by simp) (by simp) h
          exact ⟨a, sub, by simpa [Listing.lookup] using h1, h2⟩
      · simp only [List.cons_append, Listing.lookup, hn, if_false] at h
        obtain ⟨a, sub, h1, h2⟩ := ihr (n :: ps) (m :: qs) it (by simp) (by simp) h
        exact ⟨a, sub, by simpa [Listing.lookup, hn] using h1, h2⟩

theorem FS.lookup_append (fs : FS) (p q : Path) (a : Attr) (sub : Listing)
    (h : fs.lookup p = some (Item.dir a sub)) (hq : q ≠ []) :
    fs.lookup (p ++ q) = sub.lookup q := by
  match p, h with
  | [], h =>
    simp [FS.lookup] at h
    obtain ⟨-, rfl⟩ := h
    match q, hq with
    | m :: qs, _ => simp [FS.lookup]
  | n :: ps, h =>
    have := Listing.lookup_below fs.entries (n :: ps) q a sub h hq
    simpa [FS.lookup] using this

theorem FS.lookup_split (fs : FS) (p q : Path) (it : Item) (hq : q ≠ [])
    (h : fs.lookup (p ++ q) = some it) :
    ∃ a sub, fs.lookup p = some (Item.dir a sub) ∧ sub.lookup q = some it := by
  match p, h with
  | [], h =>
    match q, hq, h with
    | m :: qs, _, h => exact ⟨fs.cwd, fs.entries, rfl, by simpa [FS.lookup] using h⟩
  | n :: ps, h =>
    have h' : fs.entries.lookup ((n :: ps) ++ q) = some it := by simpa [FS.lookup] using h
    obtain ⟨a, sub, h1, h2⟩ := Listing.lookup_cut fs.entries (n :: ps) q it (by simp) hq h'
    exact ⟨a, sub, by simpa [FS.lookup] using h1, h2⟩

/-- The tree is closed under initial segments: above anything that exists
there are directories. -/
theorem FS.dir_above (fs : FS) (p q : Path) (k : Kind) (h : fs.kindAt p = some k)
    (hq : q <+: p) (hne : q ≠ p) : fs.kindAt q = some Kind.dir := by
  obtain ⟨t, rfl⟩ := hq
  have ht : t ≠ [] := by
    intro ht; subst ht; simp at hne
  unfold FS.kindAt at h
  cases hl : fs.lookup (q ++ t) with
  | none => simp [hl] at h
  | some it =>
    obtain ⟨a, sub, h1, -⟩ := FS.lookup_split fs q t it ht hl
    simp [FS.kindAt, h1, Item.kind]

/-! ## The stream and the tree -/

theorem entryRecord_name (p : Path) (it : Item) : (entryRecord p it).header.name = p := by
  cases it <;> rfl

/-- Every entry below a directory has its record in the enumeration. -/
theorem Listing.preorder_of_entry (l : Listing) : ∀ (base q : Path) (it : Item),
    l.lookup q = some it → entryRecord (base ++ q) it ∈ preorderList base l := by
  induction l with
  | nil => intro base q it h; simp [Listing.lookup] at h
  | file name b c rest ih =>
    intro base q it h
    match q, h with
    | n :: qs, h =>
      by_cases hn : n = name
      · subst hn
        match qs, h with
        | [], h =>
          simp [Listing.lookup] at h
          subst h
          simp [preorderList]
        | k :: ks, h => simp [Listing.lookup] at h
      · simp only [Listing.lookup, hn, if_false] at h
        have := ih base (n :: qs) it h
        simp [preorderList, this]
  | dir name b s rest ihs ihr =>
    intro base q it h
    match q, h with
    | n :: qs, h =>
      by_cases hn : n = name
      · subst hn
        match qs, h with
        | [], h =>
          simp [Listing.lookup] at h
          subst h
          simp [preorderList]
        | k :: ks, h =>
          simp only [Listing.lookup, if_true] at h
          have := ihs (base ++ [n]) (k :: ks) it h
          simp only [List.append_assoc, List.singleton_append] at this
          simp [preorderList, this]
      · simp only [Listing.lookup, hn, if_false] at h
        have := ihr base (n :: qs) it h
        simp [preorderList, this]

theorem Listing.name_of_lookup (l : Listing) : ∀ (m : String) (qs : Path) (it : Item),
    l.lookup (m :: qs) = some it → m ∈ l.names := by
  induction l with
  | nil => intro m qs it h; simp [Listing.lookup] at h
  | file name b c rest ih =>
    intro m qs it h
    by_cases hn : m = name
    · simp [Listing.names, hn]
    · simp only [Listing.lookup, hn, if_false] at h
      simp [Listing.names, ih m qs it h]
  | dir name b s rest _ ihr =>
    intro m qs it h
    by_cases hn : m = name
    · simp [Listing.names, hn]
    · simp only [Listing.lookup, hn, if_false] at h
      simp [Listing.names, ihr m qs it h]

/-- In a tree without repeated names every record of the enumeration is the
record of the entry found at its path. -/
theorem Listing.entry_of_preorder (l : Listing) : ∀ (base : Path) (r : Record),
    l.distinct = true → r ∈ preorderList base l →
    ∃ q it, l.lookup q = some it ∧ r = entryRecord (base ++ q) it := by
  induction l with
  | nil => intro base r _ h; simp [preorderList] at h
  | file name b c rest ih =>
    intro base r hd h
    simp only [Listing.distinct, Bool.and_eq_true, decide_eq_true_eq] at hd
    simp only [preorderList, List.mem_cons] at h
    rcases h with h | h
    · exact ⟨[name], Item.file b c, by simp [Listing.lookup], h⟩
    · obtain ⟨q, it, hq, hr⟩ := ih base r hd.2 h
      match q, hq with
      | [], hq => simp [Listing.lookup_nil_path] at hq
      | m :: qs, hq =>
        have hm : m ∈ rest.names := Listing.name_of_lookup rest m qs it hq
        have hne : ¬ m = name := by
          intro e; subst e; exact hd.1 hm
        exact ⟨m :: qs, it, by simpa [Listing.lookup, hne] using hq, hr⟩
  | dir name b s rest ihs ihr =>
    intro base r hd h
    simp only [Listing.distinct, Bool.and_eq_true, decide_eq_true_eq] at hd
    simp only [preorderList, List.mem_cons, List.mem_append] at h
    rcases h with h | h | h
    · exact ⟨[name], Item.dir b s, by simp [Listing.lookup], h⟩
    · obtain ⟨q, it, hq, hr⟩ := ihs (base ++ [name]) r hd.1.2 h
      match q, hq with
      | [], hq => simp [Listing.lookup_nil_path] at hq
      | m :: qs, hq =>
        refine ⟨name :: m :: qs, it, by simpa [Listing.lookup] using hq, ?_⟩
        simpa using hr
    · obtain ⟨q, it, hq, hr⟩ := ihr base r hd.2 h
      match q, hq with
      | [], hq => simp [Listing.lookup_nil_path] at hq
      | m :: qs, hq =>
        have hm : m ∈ rest.names := Listing.name_of_lookup rest m qs it hq
        have hne : ¬ m = name := by
          intro e; subst e; exact hd.1.1 hm
        exact ⟨m :: qs, it, by simpa [Listing.lookup, hne] using hq, hr⟩

theorem Listing.distinct_of_lookup (l : Listing) : ∀ (p : Path) (a : Attr) (sub : Listing),
    l.distinct = true → l.lookup p = some (Item.dir a sub) → sub.distinct = true := by
  induction l with
  | nil => intro p a sub _ h; simp [Listing.lookup] at h
  | file name b c rest ih =>
    intro p a sub hd h
    simp only [Listing.distinct, Bool.and_eq_true] at hd
    match p, h with
    | n :: ps, h =>
      by_cases hn : n = name
      · subst hn
        cases ps <;> simp [Listing.lookup] at h
      · simp only [Listing.lookup, hn, if_false] at h
        exact ih _ _ _ hd.2 h
  | dir name b s rest ihs ihr =>
    intro p a sub hd h
    simp only [Listing.distinct, Bool.and_eq_true] at hd
    match p, h with
    | n :: ps, h =>
      by_cases hn : n = name
      · subst hn
        match ps, h with
        | [], h =>
          simp [Listing.lookup] at h
          obtain ⟨-, rfl⟩ := h
          exact hd.1.2
        | k :: ks, h =>
          simp only [Listing.lookup, if_true] at h
          exact ihs _ _ _ hd.1.2 h
      · simp only [Listing.lookup, hn, if_false] at h
        exact ihr _ _ _ hd.2 h

theorem entryRecord_sortAll (p : Path) (it : Item) :
    entryRecord p it.sortAll = entryRecord p it := by
  cases it <;> rfl

theorem Listing.names_cons (n : String) (it : Item) (l : Listing) :
    (Listing.cons n it l).names = n :: l.names := by
  cases it <;> rfl

theorem Listing.mem_names_insert (n : String) (it : Item) (l : Listing) (m : String) :
    m ∈ (l.insert n it).names ↔ m = n ∨ m ∈ l.names := by
  induction l with
  | nil => simp [Listing.insert, Listing.names_cons, Listing.names]
  | file k a c rest ih =>
    simp only [Listing.insert]
    split
    · simp [Listing.names_cons, Listing.names]
    · simp only [Listing.names, List.mem_cons, ih]
      tauto
  | dir k a s rest _ ih =>
    simp only [Listing.insert]
    split
    · simp [Listing.names_cons, Listing.names]
    · simp only [Listing.names, List.mem_cons, ih]
      tauto

theorem Listing.mem_names_sortAll (l : Listing) (m : String) :
    m ∈ l.sortAll.names ↔ m ∈ l.names := by
  induction l with
  | nil => simp [Listing.sortAll]
  | file k a c rest ih =>
    simp [Listing.sortAll, Listing.mem_names_insert, Listing.names, ih]
  | dir k a s rest _ ih =>
    simp [Listing.sortAll, Listing.mem_names_insert, Listing.names, ih]

theorem Listing.lookup_cons (n : String) (it : Item) (rest : Listing) (m : String) (qs : Path) :
    (Listing.cons n it rest).lookup (m :: qs) =
      if m = n then it.lookup qs else rest.lookup (m :: qs) := by
  cases it with
  | file a c =>
    by_cases hm : m = n
    · cases qs <;> simp [Listing.cons, Listing.lookup, Item.lookup, hm]
    · simp [Listing.cons, Listing.lookup, hm]
  | dir a s =>
    by_cases hm : m = n
    · cases qs <;> simp [Listing.cons, Listing.lookup, Item.lookup, hm]
    · simp [Listing.cons, Listing.lookup, hm]

/-- Lookups after an entry of a new name is put in its place. -/
theorem Listing.lookup_insert (n : String) (it : Item) (l : Listing) (hn : n ∉ l.names)
    (m : String) (qs : Path) :
    (l.insert n it).lookup (m :: qs) = if m = n then it.lookup qs else l.lookup (m :: qs) := by
  induction l with
  | nil => simp [Listing.insert, Listing.lookup_cons]
  | file k a c rest ih =>
    simp only [Listing.names, List.mem_cons, not_or] at hn
    simp only [Listing.insert]
    split
    · rw [Listing.lookup_cons]
    · by_cases hmk : m = k
      · subst hmk
        have hmn : ¬ m = n := fun e => hn.1 e.symm
        simp [Listing.lookup, hmn]
      · simp only [Listing.lookup, hmk, if_false]
        exact ih hn.2
  | dir k a s rest _ ih =>
    simp only [Listing.names, List.mem_cons, not_or] at hn
    simp only [Listing.insert]
    split
    · rw [Listing.lookup_cons]
    · by_cases hmk : m = k
      · subst hmk
        have hmn : ¬ m = n := fun e => hn.1 e.symm
        simp [Listing.lookup, hmn]
      · simp only [Listing.lookup, hmk, if_false]
        exact ih hn.2

/-- Sorting changes no lookup, up to the sorting of what is found. -/
theorem Listing.lookup_sortAll (l : Listing) : ∀ (q : Path), l.distinct = true →
    l.sortAll.lookup q = (l.lookup q).map Item.sortAll := by
  induction l with
  | nil => intro q _; simp [Listing.sortAll, Listing.lookup]
  | file k a c rest ih =>
    intro q hd
    simp only [Listing.distinct, Bool.and_eq_true, decide_eq_true_eq] at hd
    match q with
    | [] => simp [Listing.lookup_nil_path]
    | m :: qs =>
      have hk : k ∉ rest.sortAll.names := by
        rw [Listing.mem_names_sortAll]; exact hd.1
      simp only [Listing.sortAll]
      rw [Listing.lookup_insert k _ _ hk, ih (m :: qs) hd.2]
      by_cases hm : m = k
      · cases qs <;> simp [Listing.lookup, Item.lookup, hm, Item.sortAll]
      · simp [Listing.lookup, hm]
  | dir k a s rest ihs ihr =>
    intro q hd
    simp only [Listing.distinct, Bool.and_eq_true, decide_eq_true_eq] at hd
    match q with
    | [] => simp [Listing.lookup_nil_path]
    | m :: qs =>
      have hk : k ∉ rest.sortAll.names := by
        rw [Listing.mem_names_sortAll]; exact hd.1.1
      simp only [Listing.sortAll]
      rw [Listing.lookup_insert k _ _ hk, ihr (m :: qs) hd.2]
      by_cases hm : m = k
      · cases qs with
        | nil => simp [Listing.lookup, Item.lookup, hm, Item.sortAll]
        | cons x xs =>
          simp only [hm, if_true, Item.lookup, Listing.lookup]
          exact ihs (x :: xs) hd.1.2
      · simp [Listing.lookup, hm]

theorem Listing.distinct_cons (n : String) (it : Item) (l : Listing) :
    (Listing.cons n it l).distinct = (decide (n ∉ l.names) && it.distinct && l.distinct) := by
  cases it <;> simp [Listing.cons, Listing.distinct, Item.distinct]

theorem Listing.distinct_insert (n : String) (it : Item) (l : Listing) (hn : n ∉ l.names)
    (hit : it.distinct = true) (hl : l.distinct = true) :
    (l.insert n it).distinct = true := by
  induction l with
  | nil => simp [Listing.insert, Listing.distinct_cons, Listing.names, Listing.distinct, hit]
  | file k a c rest ih =>
    simp only [Listing.names, List.mem_cons, not_or] at hn
    simp only [Listing.insert]
    split
    · rw [Listing.distinct_cons]
      simp [Listing.names, hn.1, hn.2, hit, hl]
    · simp only [Listing.distinct, Bool.and_eq_true, decide_eq_true_eq] at hl ⊢
      refine ⟨?_, ih hn.2 hl.2⟩
      rw [Listing.mem_names_insert]
      intro h
      rcases h with h | h
      · exact hn.1 h.symm
      · exact hl.1 h
  | dir k a s rest _ ih =>
    simp only [Listing.names, List.mem_cons, not_or] at hn
    simp only [Listing.insert]
    split
    · rw [Listing.distinct_cons]
      simp [Listing.names, hn.1, hn.2, hit, hl]
    · simp only [Listing.distinct, Bool.and_eq_true, decide_eq_true_eq] at hl ⊢
      refine ⟨⟨?_, hl.1.2⟩, ih hn.2 hl.2⟩
      rw [Listing.mem_names_insert]
      intro h
      rcases h with h | h
      · exact hn.1 h.symm
      · exact hl.1.1 h

theorem Listing.distinct_sortAll (l : Listing) : l.distinct = true → l.sortAll.distinct = true := by
  induction l with
  | nil => intro _; rfl
  | file k a c rest ih =>
    intro hd
    simp only [Listing.distinct, Bool.and_eq_true, decide_eq_true_eq] at hd
    simp only [Listing.sortAll]
    exact Listing.distinct_insert k _ _ (by rw [Listing.mem_names_sortAll]; exact hd.1)
      rfl (ih hd.2)
  | dir k a s rest ihs ihr =>
    intro hd
    simp only [Listing.distinct, Bool.and_eq_true, decide_eq_true_eq] at hd
    simp only [Listing.sortAll]
    exact Listing.distinct_insert k _ _ (by rw [Listing.mem_names_sortAll]; exact hd.1.1)
      (ihs hd.1.2) (ihr hd.2)

/-- In a tree without repeated names every record of the enumeration of a
root is the record of the entry at the path it names, at or below the root. -/
theorem FS.lookup_of_preorder (fs : FS) (root : Path) (r : Record)
    (hd : fs.entries.distinct = true) (h : r ∈ preorder fs root) :
    ∃ it, fs.lookup r.header.name = some it ∧ r = entryRecord r.header.name it ∧
      root <+: r.header.name := by
  unfold preorder at h
  cases hl : fs.lookup root with
  | none => simp [hl] at h
  | some x =>
    cases x with
    | file a c =>
      simp [hl] at h
      subst h
      exact ⟨Item.file a c, by simpa [entryRecord_name] using hl, by simp [entryRecord_name],
        by simp [entryRecord_name]⟩
    | dir a sub =>
      simp only [hl, List.mem_cons] at h
      rcases h with h | h
      · subst h
        exact ⟨Item.dir a sub, by simpa [entryRecord_name] using hl, by simp [entryRecord_name],
          by simp [entryRecord_name]⟩
      · have hsub : sub.distinct = true := by
          match root, hl with
          | [], hl =>
            simp [FS.lookup] at hl
            obtain ⟨-, rfl⟩ := hl
            exact hd
          | n :: ps, hl => exact Listing.distinct_of_lookup fs.entries (n :: ps) a sub hd hl
        obtain ⟨q, it', hq, hr⟩ :=
          Listing.entry_of_preorder sub.sortAll root r (Listing.distinct_sortAll sub hsub) h
        rw [Listing.lookup_sortAll sub q hsub] at hq
        obtain ⟨it, hit, rfl⟩ := Option.map_eq_some'.mp hq
        have hqne := Listing.lookup_cons_ne_nil sub q it hit
        have hlk : fs.lookup (root ++ q) = some it := by
          rw [FS.lookup_append fs root q a sub hl hqne]; exact hit
        rw [entryRecord_sortAll] at hr
        subst hr
        exact ⟨it, by simpa [entryRecord_name] using hlk, by simp [entryRecord_name],
          by simp [entryRecord_name]⟩

/-- In a tree without repeated names every entry at or below a root has its
record in the enumeration of the root. -/
theorem FS.preorder_of_lookup (fs : FS) (root p : Path) (it : Item)
    (hd : fs.entries.distinct = true)
    (h : fs.lookup p = some it) (hr : root <+: p) : entryRecord p it ∈ preorder fs root := by
  obtain ⟨t, rfl⟩ := hr
  by_cases ht : t = []
  · subst ht
    simp only [List.append_nil] at h ⊢
    unfold preorder
    rw [h]
    cases it <;> simp
  · obtain ⟨a, sub, h1, h2⟩ := FS.lookup_split fs root t it ht h
    have hsub : sub.distinct = true := by
      match root, h1 with
      | [], h1 =>
        simp [FS.lookup] at h1
        obtain ⟨-, rfl⟩ := h1
        exact hd
      | n :: ps, h1 => exact Listing.distinct_of_lookup fs.entries (n :: ps) a sub hd h1
    unfold preorder
    rw [h1]
    simp only [List.mem_cons]
    right
    have h3 : sub.sortAll.lookup t = some it.sortAll := by
      rw [Listing.lookup_sortAll sub t hsub, h2]; rfl
    have := Listing.preorder_of_entry sub.sortAll root t it.sortAll h3
    rwa [entryRecord_sortAll] at this

/-- In a tree without repeated names the enumeration below a directory names
no path twice. -/
theorem Listing.preorderList_nodup (l : Listing) : ∀ (base : Path), l.distinct = true →
    ((preorderList base l).map (fun r => r.header.name)).Nodup := by
  induction l with
  | nil => intro base _; simp [preorderList]
  | file k a c rest ih =>
    intro base hd
    have hd0 := hd
    simp only [Listing.distinct, Bool.and_eq_true, decide_eq_true_eq] at hd
    simp only [preorderList, List.map_cons, List.nodup_cons, entryRecord_name]
    refine ⟨?_, ih base hd.2⟩
    intro hmem
    obtain ⟨r, hr, hname⟩ := List.mem_map.mp hmem
    obtain ⟨q, it, hq, he⟩ := Listing.entry_of_preorder rest base r hd.2 hr
    rw [he, entryRecord_name] at hname
    have hqk : q = [k] := List.append_cancel_left hname
    subst hqk
    exact hd.1 (Listing.name_of_lookup rest k [] it hq)
  | dir k a s rest ihs ihr =>
    intro base hd
    simp only [Listing.distinct, Bool.and_eq_true, decide_eq_true_eq] at hd
    simp only [preorderList, List.map_cons, List.map_append, List.nodup_cons, entryRecord_name,
      List.mem_append, not_or]
    have hsubname : ∀ r ∈ preorderList (base ++ [k]) s, ∃ q, q ≠ [] ∧
        r.header.name = base ++ k :: q := by
      intro r hr
      obtain ⟨q, it, hq, he⟩ := Listing.entry_of_preorder s (base ++ [k]) r hd.1.2 hr
      refine ⟨q, Listing.lookup_cons_ne_nil s q it hq, ?_⟩
      rw [he, entryRecord_name]
      simp
    have hrestname : ∀ r ∈ preorderList base rest, ∃ m qs, ¬ m = k ∧
        r.header.name = base ++ m :: qs := by
      intro r hr
      obtain ⟨q, it, hq, he⟩ := Listing.entry_of_preorder rest base r hd.2 hr
      match q, hq with
      | [], hq => simp [Listing.lookup_nil_path] at hq
      | m :: qs, hq =>
        refine ⟨m, qs, ?_, by rw [he, entryRecord_name]⟩
        intro e
        subst e
        exact hd.1.1 (Listing.name_of_lookup rest m qs it hq)
    refine ⟨⟨?_, ?_⟩, ?_⟩
    · intro hmem
      obtain ⟨r, hr, hname⟩ := List.mem_map.mp hmem
      obtain ⟨q, hqne, hq⟩ := hsubname r hr
      rw [hq] at hname
      have := List.append_cancel_left hname
      simp at this
      exact hqne this
    · intro hmem
      obtain ⟨r, hr, hname⟩ := List.mem_map.mp hmem
      obtain ⟨m, qs, hm, hq⟩ := hrestname r hr
      rw [hq] at hname
      have := List.append_cancel_left hname
      simp at this
      exact hm this.1
    · rw [List.nodup_append]
      refine ⟨ihs (base ++ [k]) hd.1.2, ihr base hd.2, ?_⟩
      intro x hx1 hx2
      obtain ⟨r1, hr1, hn1⟩ := List.mem_map.mp hx1
      obtain ⟨r2, hr2, hn2⟩ := List.mem_map.mp hx2
      obtain ⟨q, -, hq⟩ := hsubname r1 hr1
      obtain ⟨m, qs, hm, hq2⟩ := hrestname r2 hr2
      have heq : base ++ k :: q = base ++ m :: qs := by
        rw [← hq, ← hq2, hn1, hn2]
      have := List.append_cancel_left heq
      simp at this
      exact hm this.1.symm

/-- In a tree without repeated names the enumeration of a root names no path
twice. -/
theorem FS.preorder_nodup (fs : FS) (root : Path) (hd : fs.entries.distinct = true) :
    ((preorder fs root).map (fun r => r.header.name)).Nodup := by
  unfold preorder
  cases hl : fs.lookup root with
  | none => simp
  | some x =>
    cases x with
    | file a c => simp
    | dir a sub =>
      have hsub : sub.distinct = true := by
        match root, hl with
        | [], hl =>
          simp [FS.lookup] at hl
          obtain ⟨-, rfl⟩ := hl
          exact hd
        | n :: ps, hl => exact Listing.distinct_of_lookup fs.entries (n :: ps) a sub hd hl
      simp only [List.map_cons, List.nodup_cons, entryRecord_name]
      refine ⟨?_, Listing.preorderList_nodup sub.sortAll root (Listing.distinct_sortAll sub hsub)⟩
      intro hmem
      obtain ⟨r, hr, hname⟩ := List.mem_map.mp hmem
      obtain ⟨q, it, hq, he⟩ :=
        Listing.entry_of_preorder sub.sortAll root r (Listing.distinct_sortAll sub hsub) hr
      rw [he, entryRecord_name] at hname
      have hqne := Listing.lookup_cons_ne_nil _ q it hq
      have : root ++ q = root ++ [] := by simpa using hname
      exact hqne (List.append_cancel_left this)

theorem nodup_filter_length (p : Path) (names : List Path) (h : names.Nodup) :
    (names.filter (fun x => decide (x = p))).length = if p ∈ names then 1 else 0 := by
  induction names with
  | nil => simp
  | cons x xs ih =>
    rw [List.nodup_cons] at h
    by_cases hx : x = p
    · subst hx
      have hnot : x ∉ xs := h.1
      have := ih h.2
      simp only [hnot, if_false] at this
      simp [this]
    · have hpx : ¬ p = x := fun e => hx e.symm
      simp [hx, hpx, ih h.2]

theorem filter_name_length (p : Path) (recs : List Record) :
    (recs.filter (fun r => decide (r.header.name = p))).length =
      ((recs.map (fun r => r.header.name)).filter (fun x => decide (x = p))).length := by
  induction recs with
  | nil => rfl
  | cons r rs ih =>
    by_cases h : r.header.name = p <;> simp [h, ih]

/-- In a tree without repeated names the enumeration of a root holds exactly
one record for every entry at or below the root, and none for any other path. -/
theorem FS.preorder_count (fs : FS) (root p : Path) (it : Item)
    (hd : fs.entries.distinct = true) (h : fs.lookup p = some it) :
    ((preorder fs root).filter (fun r => decide (r.header.name = p))).length =
      if root <+: p then 1 else 0 := by
  rw [filter_name_length, nodup_filter_length p _ (FS.preorder_nodup fs root hd)]
  by_cases hr : root <+: p
  · have hmem := FS.preorder_of_lookup fs root p it hd h hr
    have : p ∈ (preorder fs root).map (fun r => r.header.name) :=
      List.mem_map.mpr ⟨_, hmem, entryRecord_name p it⟩
    simp [this, hr]
  · have : p ∉ (preorder fs root).map (fun r => r.header.name) := by
      intro hmem
      obtain ⟨r, hr', hname⟩ := List.mem_map.mp hmem
      obtain ⟨-, -, -, hpre⟩ := FS.lookup_of_preorder fs root r hd hr'
      rw [hname] at hpre
      exact hr hpre
    simp [this, hr]

/-- The number of records for an entry in the enumerations of a list of roots
is the number of roots at or above the entry. -/
theorem FS.preorder_count_roots (fs : FS) (p : Path) (it : Item)
    (hd : fs.entries.distinct = true) (h : fs.lookup p = some it) (roots : List Path) :
    ((roots.flatMap (preorder fs)).filter (fun r => decide (r.header.name = p))).length =
      (roots.filter (fun root => decide (root <+: p))).length := by
  induction roots with
  | nil => rfl
  | cons root rest ih =>
    rw [List.flatMap_cons, List.filter_append, List.length_append, ih,
      FS.preorder_count fs root p it hd h]
    by_cases hr : root <+: p
    · simp [hr]; omega
    · simp [hr]

/-- A list in which every path occurs at most once has no repetition. -/
theorem nodup_of_filter_length (l : List Path)
    (h : ∀ p, (l.filter (fun x => decide (x = p))).length ≤ 1) : l.Nodup := by
  induction l with
  | nil => exact List.nodup_nil
  | cons x xs ih =>
    rw [List.nodup_cons]
    constructor
    · intro hx
      have h1 := h x
      rw [List.filter_cons_of_pos (by simp), List.length_cons] at h1
      have h2 : 0 < (xs.filter (fun y => decide (y = x))).length :=
        List.length_pos_of_mem (List.mem_filter.mpr ⟨hx, by simp⟩)
      omega
    · apply ih
      intro p
      have h1 := h p
      by_cases hxp : x = p
      · rw [List.filter_cons_of_pos (by simp [hxp]), List.length_cons] at h1
        omega
      · rw [List.filter_cons_of_neg (by simp [hxp])] at h1
        exact h1

theorem entryRecord_reg (p : Path) (it : Item)
    (h : (entryRecord p it).header.typeflag = TypeFlag.reg) :
    ∃ a c, it = Item.file a c := by
  cases it with
  | file a c => exact ⟨a, c, rfl⟩
  | dir a s => simp [entryRecord] at h

theorem entryRecord_mode (p : Path) (it : Item) : (entryRecord p it).header.mode = it.attr.mode := by
  cases it <;> rfl

/-- Where every regular file that its owner may not write lies at or below at
most one root, the enumerations of the roots hold no two records for such a
file. -/
theorem FS.preorder_read_only_once (fs : FS) (hd : fs.entries.distinct = true)
    (roots : List Path)
    (honce : ∀ p a c, fs.fileAt p = some (a, c) → a.ownerWrite = true ∨
      (roots.filter (fun root => decide (root <+: p))).length ≤ 1) :
    (((roots.flatMap (preorder fs)).filter
      (fun r => decide (r.header.typeflag = TypeFlag.reg) &&
        !decide (r.header.mode / 128 % 2 = 1))).map (fun r => r.header.name)).Nodup := by
  apply nodup_of_filter_length
  intro p
  rw [← filter_name_length]
  by_cases hex : ∃ r ∈ (roots.flatMap (preorder fs)).filter
      (fun r => decide (r.header.typeflag = TypeFlag.reg) &&
        !decide (r.header.mode / 128 % 2 = 1)), r.header.name = p
  · obtain ⟨r, hr, hname⟩ := hex
    obtain ⟨hmem, hq⟩ := List.mem_filter.mp hr
    simp only [Bool.and_eq_true, decide_eq_true_eq, Bool.not_eq_true', decide_eq_false_iff_not]
      at hq
    obtain ⟨root, -, hroot⟩ := List.mem_flatMap.mp hmem
    obtain ⟨it, hl, he, -⟩ := FS.lookup_of_preorder fs root r hd hroot
    have hreg := hq.1
    rw [he] at hreg
    obtain ⟨a, c, hit⟩ := entryRecord_reg _ _ hreg
    subst hit
    rw [hname] at hl
    have hfile : fs.fileAt p = some (a, c) := by simp [FS.fileAt, hl]
    rcases honce p a c hfile with hw | hcount
    · exfalso
      apply hq.2
      rw [he, entryRecord_mode]
      simpa [Attr.ownerWrite, Item.attr] using hw
    · have hsub : (((roots.flatMap (preorder fs)).filter
          (fun r => decide (r.header.typeflag = TypeFlag.reg) &&
            !decide (r.header.mode / 128 % 2 = 1))).filter
              (fun r => decide (r.header.name = p))).length ≤
          ((roots.flatMap (preorder fs)).filter (fun r => decide (r.header.name = p))).length :=
        (List.Sublist.filter _ (List.filter_sublist _)).length_le
      rw [FS.preorder_count_roots fs p _ hd hl roots] at hsub
      omega
  · have hnil : ((roots.flatMap (preorder fs)).filter
        (fun r => decide (r.header.typeflag = TypeFlag.reg) &&
          !decide (r.header.mode / 128 % 2 = 1))).filter
            (fun r => decide (r.header.name = p)) = [] := by
      rw [List.filter_eq_nil_iff]
      intro r hr hn
      exact hex ⟨r, hr, by simpa using hn⟩
    rw [hnil]
    simp

/-! ## Unzip: restoring without a panic -/

/-- MkdirAll succeeds when no regular file stands on the way. -/
theorem Listing.mkdirAll_succeeds (a : Attr) (l : Listing) : ∀ (p : Path),
    (∀ q, q ≠ [] → q <+: p → ∀ b c, l.kindAt q ≠ some (Kind.file b c)) →
    ∃ l', l.mkdirAll a p = Except.ok l' := by
  induction l with
  | nil => intro p _; exact ⟨Listing.chain a p, rfl⟩
  | file name b c rest ih =>
    intro p h
    match p, h with
    | [], _ => exact ⟨_, rfl⟩
    | n :: ps, h =>
      by_cases hn : n = name
      · subst hn
        exfalso
        exact h [n] (by simp) (by simp [List.cons_prefix_cons]) b c
          (by simp [Listing.kindAt, Listing.lookup, Item.kind])
      · have h' : ∀ q, q ≠ [] → q <+: n :: ps → ∀ b c, rest.kindAt q ≠ some (Kind.file b c) := by
          intro q hq hpre b' c'
          have := h q hq hpre b' c'
          match q, hq, hpre with
          | m :: qs, _, hpre =>
            have hm : m = n := (List.cons_prefix_cons.mp hpre).1
            subst hm
            simpa [Listing.kindAt, Listing.lookup, hn] using this
        obtain ⟨r', hr⟩ := ih (n :: ps) h'
        exact ⟨Listing.file name b c r', by simp [Listing.mkdirAll, hn, hr, Except.map]⟩
  | dir name b s rest ihs ihr =>
    intro p h
    match p, h with
    | [], _ => exact ⟨_, rfl⟩
    | n :: ps, h =>
      by_cases hn : n = name
      · subst hn
        have h' : ∀ q, q ≠ [] → q <+: ps → ∀ b c, s.kindAt q ≠ some (Kind.file b c) := by
          intro q hq hpre b' c'
          have := h (n :: q) (by simp) (by simpa [List.cons_prefix_cons] using hpre) b' c'
          match q, hq with
          | m :: qs, _ => simpa [Listing.kindAt, Listing.lookup] using this
        obtain ⟨s', hs⟩ := ihs ps h'
        exact ⟨Listing.dir n b s' rest, by simp [Listing.mkdirAll, hs, Except.map]⟩
      · have h' : ∀ q, q ≠ [] → q <+: n :: ps → ∀ b c, rest.kindAt q ≠ some (Kind.file b c) := by
          intro q hq hpre b' c'
          have := h q hq hpre b' c'
          match q, hq, hpre with
          | m :: qs, _, hpre =>
            have hm : m = n := (List.cons_prefix_cons.mp hpre).1
            subst hm
            simpa [Listing.kindAt, Listing.lookup, hn] using this
        obtain ⟨r', hr⟩ := ihr (n :: ps) h'
        exact ⟨Listing.dir name b s r', by simp [Listing.mkdirAll, hn, hr, Except.map]⟩

theorem FS.mkdirAll_ok (fs : FS) (p : Path) (mode : Nat) (now : Time)
    (h : ∀ q, q ≠ [] → q <+: p → ∀ b c, fs.kindAt q ≠ some (Kind.file b c)) :
    ∃ fs1, fs.mkdirAll p mode now = Except.ok fs1 := by
  have h' : ∀ q, q ≠ [] → q <+: p → ∀ b c, fs.entries.kindAt q ≠ some (Kind.file b c) := by
    intro q hq hpre b c
    have := h q hq hpre b c
    match q, hq with
    | m :: qs, _ => simpa [FS.kindAt_cons] using this
  obtain ⟨l', hl⟩ := Listing.mkdirAll_succeeds (Attr.fresh mode now) fs.entries p h'
  exact ⟨FS.mk fs.cwd l', by simp [FS.mkdirAll, hl, Except.map]⟩

theorem not_prefix_dropLast (p : Path) (hp : p ≠ []) : ¬ p <+: p.dropLast := by
  intro h
  have h1 := h.length_le
  have h2 : 0 < p.length := List.length_pos.mpr hp
  simp [List.length_dropLast] at h1
  omega

theorem prefix_dropLast_ne (p q : Path) (hp : p ≠ []) (h : q <+: p.dropLast) :
    q <+: p ∧ q ≠ p := by
  refine ⟨h.trans (List.dropLast_prefix p), ?_⟩
  intro e
  subst e
  exact not_prefix_dropLast q hp h

/-- The body of the loop of Unzip once the target is open and empty: the
target holds the content of the record, with the permission bits of the open
file and the times of the header, and every other path is as MkdirAll left
it. -/
theorem unzipEntry_of_open (now : Time) (r : Record) (fs fs0 fs2 : FS) (a2 : Attr)
    (hr : r.header.typeflag = TypeFlag.reg)
    (hm : fs.mkdirAll r.header.name.dropLast 0o755 now = Except.ok fs0)
    (ho : fs0.openFile r.header.name true true r.header.mode now = Except.ok fs2)
    (hk2 : ∀ q, fs2.kindAt q =
      if q = r.header.name then some (Kind.file a2 []) else fs0.kindAt q) :
    ∃ fs4, unzipEntry now r fs = Outcome.ok fs4 ∧
      ∀ q, fs4.kindAt q = if q = r.header.name then
          some (Kind.file (Attr.mk a2.mode r.header.modTime
            (r.header.accessTime.getD a2.accessTime) a2.statOk a2.openOk) r.content)
        else fs0.kindAt q := by
  have hk2n : fs2.kindAt r.header.name = some (Kind.file a2 []) := by
    simpa using hk2 r.header.name
  have hw := FS.kindAt_write fs2 r.header.name a2 [] r.content now hk2n
  have hk3 := hw r.header.name
  simp only [if_true, List.drop_nil, List.append_nil] at hk3
  obtain ⟨fs4, h4, hq4⟩ := FS.chtimes_file (fs2.write r.header.name r.content now)
    r.header.name _ _ r.header.accessTime r.header.modTime hk3
  refine ⟨fs4, by simp [unzipEntry, unzipWrite, hr, hm, ho, h4], ?_⟩
  intro q
  by_cases hq : q = r.header.name
  · rw [hq4 q, if_pos hq, if_pos hq]
  · rw [hq4 q, if_neg hq, if_neg hq, hw q, if_neg hq, hk2 q, if_neg hq]

/-- One regular-file record that stands for a regular file of `fs` which its
owner may read is restored without a panic, and the state stays a state of the
restore: its file is created, or, when an earlier record has written it, is
opened again, which takes that its owner may write it. -/
theorem restore_step (now : Time) (fs fsX : FS) (f : Path) (done : List Path) (r : Record)
    (a : Attr) (c : Bytes)
    (hinv : Restoring fs fsX f done) (hf : fs.kindAt f = none)
    (hr : r.header.typeflag = TypeFlag.reg)
    (hp : fs.kindAt r.header.name = some (Kind.file a c))
    (hmode : r.header.mode = a.mode) (hread : a.ownerRead = true)
    (hfresh : a.ownerWrite = false → r.header.name ∉ done) :
    ∃ fs1, unzipEntry now r fsX = Outcome.ok fs1 ∧
      Restoring fs fs1 f (r.header.name :: done) := by
  have hne : r.header.name ≠ [] := by
    intro e
    rw [e, FS.kindAt_root] at hp
    simp at hp
  have habove : ∀ q, q <+: r.header.name.dropLast → fs.kindAt q = some Kind.dir := by
    intro q hq
    obtain ⟨h1, h2⟩ := prefix_dropLast_ne _ q hne hq
    exact FS.dir_above fs _ q _ hp h1 h2
  have hnofile : ∀ q, q ≠ [] → q <+: r.header.name.dropLast →
      ∀ b d, fsX.kindAt q ≠ some (Kind.file b d) := by
    intro q _ hq b d hk
    have hdir := habove q hq
    rcases hinv.2 q b d hk with e | ⟨-, -, a0, c0, e, -⟩
    · subst e; rw [hf] at hdir; simp at hdir
    · rw [e] at hdir; simp at hdir
  obtain ⟨fs0, hm⟩ := FS.mkdirAll_ok fsX r.header.name.dropLast 0o755 now hnofile
  have hk0 := FS.kindAt_mkdirAll fsX fs0 _ _ _ hm
  have hparent : fs0.kindAt r.header.name.dropLast = some Kind.dir := by
    by_cases hd : r.header.name.dropLast = []
    · rw [hd]; exact FS.kindAt_root fs0
    · rw [hk0]
      cases hx : fsX.kindAt r.header.name.dropLast with
      | none => simp [hd]
      | some k =>
        cases k with
        | dir => rfl
        | file b d => exact absurd hx (hnofile _ hd (List.prefix_refl _) b d)
  have htarget : fs0.kindAt r.header.name = fsX.kindAt r.header.name := by
    rw [hk0]
    simp [not_prefix_dropLast _ hne]
  -- the target is created, or opened again
  obtain ⟨fs2, a2, ho, hk2, hopen2, hmode2⟩ : ∃ fs2 a2,
      fs0.openFile r.header.name true true r.header.mode now = Except.ok fs2 ∧
      (∀ q, fs2.kindAt q =
        if q = r.header.name then some (Kind.file a2 []) else fs0.kindAt q) ∧
      a2.openOk = true ∧ a2.mode = a.mode := by
    cases hx : fsX.kindAt r.header.name with
    | none =>
      rw [hx] at htarget
      obtain ⟨fs2, ho, hk2⟩ := FS.openFile_missing fs0 _ true r.header.mode now htarget hparent
      exact ⟨fs2, Attr.fresh r.header.mode now, ho, hk2, rfl, hmode⟩
    | some k =>
      cases k with
      | dir =>
        have := hinv.1 _ hx
        rw [hp] at this
        simp at this
      | file b d =>
        rw [hx] at htarget
        rcases hinv.2 _ b d hx with e | ⟨hdone, hbopen, a0, c0, h0, hbmode⟩
        · rw [e, hf] at hp; simp at hp
        · rw [hp] at h0
          simp only [Option.some.injEq, Kind.file.injEq] at h0
          obtain ⟨ha0, -⟩ := h0
          subst ha0
          have hwrite : a.ownerWrite = true := by
            cases hw : a.ownerWrite with
            | true => rfl
            | false => exact absurd hdone (hfresh hw)
          have hb : (b.canRead && b.ownerWrite) = true := by
            simp only [Attr.canRead, Attr.ownerRead, Attr.ownerWrite, hbmode, hbopen,
              Bool.true_and, Bool.and_eq_true]
            exact ⟨by simpa [Attr.ownerRead] using hread, by simpa [Attr.ownerWrite] using hwrite⟩
          obtain ⟨fs2, ho, hk2⟩ :=
            FS.openFile_existing fs0 _ b d true true r.header.mode now htarget hb
          refine ⟨fs2, Attr.mk b.mode now b.accessTime b.statOk b.openOk, ho, ?_, hbopen, hbmode⟩
          intro q
          simpa using hk2 q
  obtain ⟨fs4, h4, hk4⟩ := unzipEntry_of_open now r fsX fs0 fs2 a2 hr hm ho hk2
  refine ⟨fs4, h4, ?_, ?_⟩
  · intro q hq
    have hqne : q ≠ r.header.name := by
      intro e
      rw [hk4 q, if_pos e] at hq
      simp at hq
    rw [hk4 q, if_neg hqne, hk0 q] at hq
    cases hx : fsX.kindAt q with
    | some k =>
      rw [hx] at hq
      simp at hq
      subst hq
      exact hinv.1 q hx
    | none =>
      rw [hx] at hq
      by_cases hc : q ≠ [] ∧ q <+: r.header.name.dropLast
      · exact habove q hc.2
      · simp [hc] at hq
  · intro q b d hq
    by_cases hqe : q = r.header.name
    · rw [hk4 q, if_pos hqe] at hq
      simp only [Option.some.injEq, Kind.file.injEq] at hq
      obtain ⟨hb, -⟩ := hq
      subst hb
      exact Or.inr ⟨by simp [hqe], hopen2, a, c, by rw [hqe]; exact hp, hmode2⟩
    · rw [hk4 q, if_neg hqe, hk0 q] at hq
      cases hx : fsX.kindAt q with
      | some k =>
        rw [hx] at hq
        simp at hq
        subst hq
        rcases hinv.2 q b d hx with e | ⟨e, hrest⟩
        · exact Or.inl e
        · exact Or.inr ⟨by simp [e], hrest⟩
      | none =>
        rw [hx] at hq
        by_cases hc : q ≠ [] ∧ q <+: r.header.name.dropLast
        · simp [hc] at hq
        · simp [hc] at hq

/-- A stream whose regular-file records stand for regular files of `fs` that
their owner may read, and holds no two records for a file that its owner may
not write, is restored without error. -/
theorem restore_loop (now : Time) (fs : FS) (f : Path) (hf : fs.kindAt f = none)
    (recs : List Record) : ∀ (done : List Path) (fsX : FS),
    (∀ r ∈ recs, r.header.typeflag = TypeFlag.reg →
      ∃ a c, fs.kindAt r.header.name = some (Kind.file a c) ∧ r.header.mode = a.mode ∧
        a.ownerRead = true) →
    ((recs.filter (fun r => decide (r.header.typeflag = TypeFlag.reg) &&
        !decide (r.header.mode / 128 % 2 = 1))).map (fun r => r.header.name)).Nodup →
    (∀ r ∈ recs, r.header.typeflag = TypeFlag.reg → ¬ r.header.mode / 128 % 2 = 1 →
      r.header.name ∉ done) →
    Restoring fs fsX f done → ∃ fsU, unzipLoop now StreamEnd.eof recs fsX = Outcome.ok fsU := by
  induction recs with
  | nil => intro done fsX _ _ _ _; exact ⟨fsX, rfl⟩
  | cons r rs ih =>
    intro done fsX hrecs hnodup hfresh hinv
    by_cases hr : r.header.typeflag = TypeFlag.reg
    · obtain ⟨a, c, hp, hmode, hread⟩ := hrecs r (by simp) hr
      have hfr : a.ownerWrite = false → r.header.name ∉ done := by
        intro hw
        apply hfresh r (by simp) hr
        rw [hmode]
        simpa [Attr.ownerWrite] using hw
      obtain ⟨fs1, h1, hinv1⟩ :=
        restore_step now fs fsX f done r a c hinv hf hr hp hmode hread hfr
      have hstep : ∀ fsU, unzipLoop now StreamEnd.eof rs fs1 = Outcome.ok fsU →
          unzipLoop now StreamEnd.eof (r :: rs) fsX = Outcome.ok fsU := by
        intro fsU hU
        simp [unzipLoop, h1, hU]
      by_cases hw : r.header.mode / 128 % 2 = 1
      · rw [List.filter_cons_of_neg (by simp [hw])] at hnodup
        have hfresh1 : ∀ x ∈ rs, x.header.typeflag = TypeFlag.reg →
            ¬ x.header.mode / 128 % 2 = 1 → x.header.name ∉ r.header.name :: done := by
          intro x hx hxr hxw hmem
          rcases List.mem_cons.mp hmem with e | e
          · obtain ⟨ax, cx, hpx, hmx, -⟩ := hrecs x (by simp [hx]) hxr
            rw [e, hp] at hpx
            simp only [Option.some.injEq, Kind.file.injEq] at hpx
            apply hxw
            rw [hmx, ← hpx.1, ← hmode]
            exact hw
          · exact hfresh x (by simp [hx]) hxr hxw e
        obtain ⟨fsU, hU⟩ := ih (r.header.name :: done) fs1
          (fun x hx => hrecs x (by simp [hx])) hnodup hfresh1 hinv1
        exact ⟨fsU, hstep fsU hU⟩
      · rw [List.filter_cons_of_pos (by simp [hr, hw]), List.map_cons, List.nodup_cons] at hnodup
        have hfresh1 : ∀ x ∈ rs, x.header.typeflag = TypeFlag.reg →
            ¬ x.header.mode / 128 % 2 = 1 → x.header.name ∉ r.header.name :: done := by
          intro x hx hxr hxw hmem
          rcases List.mem_cons.mp hmem with e | e
          · apply hnodup.1
            rw [← e]
            exact List.mem_map.mpr ⟨x, List.mem_filter.mpr ⟨hx, by simp [hxr, hxw]⟩, rfl⟩
          · exact hfresh x (by simp [hx]) hxr hxw e
        obtain ⟨fsU, hU⟩ := ih (r.header.name :: done) fs1
          (fun x hx => hrecs x (by simp [hx])) hnodup.2 hfresh1 hinv1
        exact ⟨fsU, hstep fsU hU⟩
    · rw [List.filter_cons_of_neg (by simp [hr])] at hnodup
      obtain ⟨fsU, hU⟩ := ih done fsX (fun x hx => hrecs x (by simp [hx])) hnodup
        (fun x hx => hfresh x (by simp [hx])) hinv
      exact ⟨fsU, by simp [unzipLoop, unzipEntry_not_reg now r fsX hr, hU]⟩

/-! ## Unzip: the records in their order -/

/-- The loop of Unzip over a stream in two parts is the loop over the first
part followed by the loop over the second. -/
theorem unzipLoop_split (now : Time) (ending : StreamEnd) (pre post : List Record) :
    ∀ (fs fs' : FS), unzipLoop now ending (pre ++ post) fs = Outcome.ok fs' →
    ∃ fsA, unzipLoop now StreamEnd.eof pre fs = Outcome.ok fsA ∧
      unzipLoop now ending post fsA = Outcome.ok fs' := by
  induction pre with
  | nil => intro fs fs' h; exact ⟨fs, rfl, h⟩
  | cons r rs ih =>
    intro fs fs' h
    simp only [List.cons_append, unzipLoop] at h
    cases he : unzipEntry now r fs with
    | error e f => simp [he] at h
    | panic e f => simp [he] at h
    | ok fs1 =>
      simp only [he] at h
      obtain ⟨fsA, hA, hB⟩ := ih fs1 fs' h
      exact ⟨fsA, by simp [unzipLoop, he, hA], hB⟩

theorem FS.fileAt_eq_of_kind (fs1 fs2 : FS) (q : Path)
    (h1 : ∀ k, fs1.kindAt q = some k → fs2.kindAt q = some k)
    (h2 : ∀ k, fs2.kindAt q = some k → fs1.kindAt q = some k ∨ k = Kind.dir) :
    fs2.fileAt q = fs1.fileAt q := by
  cases hx : fs1.kindAt q with
  | some k =>
    have hy := h1 k hx
    cases k with
    | dir =>
      have e1 : fs1.fileAt q = none := by
        cases hf : fs1.fileAt q with
        | none => rfl
        | some x =>
          obtain ⟨a, c⟩ := x
          rw [FS.fileAt_eq_some, hx] at hf
          simp at hf
      have e2 : fs2.fileAt q = none := by
        cases hf : fs2.fileAt q with
        | none => rfl
        | some x =>
          obtain ⟨a, c⟩ := x
          rw [FS.fileAt_eq_some, hy] at hf
          simp at hf
      rw [e1, e2]
    | file a c =>
      rw [(FS.fileAt_eq_some fs1 q a c).mpr hx, (FS.fileAt_eq_some fs2 q a c).mpr hy]
  | none =>
    have e1 : fs1.fileAt q = none := by
      cases hf : fs1.fileAt q with
      | none => rfl
      | some x =>
        obtain ⟨a, c⟩ := x
        rw [FS.fileAt_eq_some, hx] at hf
        simp at hf
    have e2 : fs2.fileAt q = none := by
      cases hf : fs2.fileAt q with
      | none => rfl
      | some x =>
        obtain ⟨a, c⟩ := x
        rw [FS.fileAt_eq_some] at hf
        rcases h2 _ hf with h | h
        · rw [hx] at h; simp at h
        · simp at h
    rw [e1, e2]

/-- The body of the loop of Unzip leaves every regular file but the target of
its record as it is, and makes no other regular file. -/
theorem unzipEntry_fileAt_other (now : Time) (r : Record) (fs fs1 : FS)
    (h : unzipEntry now r fs = Outcome.ok fs1) (q : Path)
    (hq : r.header.typeflag = TypeFlag.reg → q ≠ r.header.name) :
    fs1.fileAt q = fs.fileAt q := by
  by_cases hr : r.header.typeflag = TypeFlag.reg
  · obtain ⟨-, hpres, hnew⟩ := unzipEntry_reg now r fs fs1 hr h
    apply FS.fileAt_eq_of_kind
    · exact hpres q (hq hr)
    · intro k hk
      rcases hnew q (hq hr) k hk with h1 | ⟨h1, -⟩
      · exact Or.inl h1
      · exact Or.inr h1
  · rw [unzipEntry_not_reg now r fs hr] at h
    cases h
    rfl

/-- The loop of Unzip leaves every regular file that is not the target of one
of its regular-file records as it is, and makes no other regular file. -/
theorem unzipLoop_fileAt_other (now : Time) (recs : List Record) :
    ∀ (fs fs' : FS), unzipLoop now StreamEnd.eof recs fs = Outcome.ok fs' →
    ∀ q, (∀ x ∈ recs, x.header.typeflag = TypeFlag.reg → x.header.name ≠ q) →
    fs'.fileAt q = fs.fileAt q := by
  induction recs with
  | nil =>
    intro fs fs' h q _
    simp [unzipLoop] at h
    rw [h]
  | cons r rs ih =>
    intro fs fs' h q hq
    simp only [unzipLoop] at h
    cases he : unzipEntry now r fs with
    | error e f => simp [he] at h
    | panic e f => simp [he] at h
    | ok fs1 =>
      simp only [he] at h
      rw [ih fs1 fs' h q (fun x hx => hq x (by simp [hx]))]
      exact unzipEntry_fileAt_other now r fs fs1 he q
        (fun hr e => hq r (by simp) hr e.symm)

/-! ## Claims on the stream and on the round trip -/

/-- C6, as stated, fails: the directory `d` holds the entry `x`, which cannot
be examined; the walk of `d` reports `d` and then `d/x` to the callback, which
writes no header for `d/x` and ends the walk, so that the stream Zip writes
holds the record of `d` only, while the pre-order enumeration of `d` has `d`
and then `d/x`. -/
theorem zipStream_misses_entry :
    exBroken.fileAt ["d", "x"] = some (exNoStat, [1, 2]) ∧
    walkFn (TarWriter.mk [exDirRecord] 0 none) ["d", "x"] none
      = (TarWriter.mk [exDirRecord] 0 none, some Err.nilFileInfo) ∧
    Walk exBroken ["d"] TarWriter.new
      = (TarWriter.mk [exDirRecord] 0 none, some Err.nilFileInfo) ∧
    zipStream (Env.mk exGlob (exCodec [] []) 0) exBroken ["d"] = Except.ok [exDirRecord] ∧
    (["d"].flatMap (fun pattern =>
        match (Env.mk exGlob (exCodec [] []) 0).glob exBroken pattern with
        | Except.ok found => found
        | Except.error _ => [])).flatMap (preorder exBroken)
      = [exDirRecord, entryRecord ["d", "x"] (Item.file exNoStat [1, 2])] ∧
    [exDirRecord] ≠ [exDirRecord, entryRecord ["d", "x"] (Item.file exNoStat [1, 2])] := by
  refine ⟨rfl, rfl, rfl, rfl, rfl, by decide⟩

/-- C6, amended. Order preservation: on a filesystem without failing entries
and with well-formed patterns, the stream Zip writes is, pattern after
pattern and match after match, the pre-order enumeration of each matched root
(the root first, every directory before what it holds, the entries of a
directory in the order of their names). And an Unzip that ends without error
has taken the records in stream order: at the turn of a regular-file record,
the loop has run over the records before it and changed no regular file but
their targets; the step of the record writes its content to its target and
changes no other regular file; the loop then runs over the records after it. -/
theorem Zip_Unzip_order (env : Env) (fs : FS) (artifacts : List String)
    (hh : fs.healthy = true)
    (hg : ∀ p ∈ artifacts, ∃ ms, env.glob fs p = Except.ok ms) :
    zipStream env fs artifacts =
      Except.ok ((artifacts.flatMap (fun pattern =>
        match env.glob fs pattern with
        | Except.ok found => found
        | Except.error _ => [])).flatMap (preorder fs)) ∧
    ∀ (env2 : Env) (fs0 fs1 : FS) (filename : Path) (a : Attr) (bytes : Bytes)
      (pre post : List Record) (r : Record),
      fs0.fileAt filename = some (a, bytes) → Unzip env2 fs0 filename = Outcome.ok fs1 →
      (env2.codec.decode bytes).records = pre ++ r :: post →
      r.header.typeflag = TypeFlag.reg →
      ∃ fsA fsB a',
        unzipLoop env2.now StreamEnd.eof pre fs0 = Outcome.ok fsA ∧
        unzipEntry env2.now r fsA = Outcome.ok fsB ∧
        unzipLoop env2.now (env2.codec.decode bytes).ending post fsB = Outcome.ok fs1 ∧
        (∀ q, (∀ x ∈ pre, x.header.typeflag = TypeFlag.reg → x.header.name ≠ q) →
          fsA.fileAt q = fs0.fileAt q) ∧
        fsB.fileAt r.header.name = some (a', r.content) ∧
        (∀ q, q ≠ r.header.name → fsB.fileAt q = fsA.fileAt q) := by
  refine ⟨zipStream_healthy env fs hh artifacts hg, ?_⟩
  intro env2 fs0 fs1 filename a bytes pre post r hsrc hok hsplit hreg
  have hloop : unzipLoop env2.now (env2.codec.decode bytes).ending
      (pre ++ r :: post) fs0 = Outcome.ok fs1 := by
    unfold Unzip at hok
    rw [hsrc] at hok
    simp only at hok
    rw [← hsplit]
    split at hok
    · exact hok
    · simp at hok
  obtain ⟨fsA, hA, hrest⟩ := unzipLoop_split _ _ pre (r :: post) fs0 fs1 hloop
  simp only [unzipLoop] at hrest
  cases he : unzipEntry env2.now r fsA with
  | error e f => simp [he] at hrest
  | panic e f => simp [he] at hrest
  | ok fsB =>
    simp only [he] at hrest
    obtain ⟨⟨a', hk, -, -⟩, -, -⟩ := unzipEntry_reg env2.now r fsA fsB hreg he
    refine ⟨fsA, fsB, a', hA, he, hrest, ?_, (FS.fileAt_eq_some _ _ _ _).mpr hk, ?_⟩
    · intro q hq
      exact unzipLoop_fileAt_other env2.now pre fs0 fsA hA q hq
    · intro q hq
      exact unzipEntry_fileAt_other env2.now r fsA fsB he q (fun _ => hq)

/-- Witness of `Zip_Unzip_order`: Zip on the example tree for the patterns
`z` and `d`, and Unzip of the stream it writes in a directory that holds only
the archive, at the turn of the record of `d/e/y`. -/
theorem Zip_Unzip_order_witness :
    zipStream (Env.mk exGlob (exCodec [0] exTreeStream) 0) exTree ["z", "d"]
      = Except.ok exTreeStream ∧
    exTreeStream.map (fun r => r.header.name)
      = [["z"], ["d"], ["d", "e"], ["d", "e", "y"], ["d", "x"]] ∧
    ∃ fsA fsB a',
      unzipLoop 0 StreamEnd.eof
        [exRecordAt ["z"] 0o644 [], exDirRecordAt ["d"], exDirRecordAt ["d", "e"]]
        (exHome "out" exAttr [0]) = Outcome.ok fsA ∧
      unzipEntry 0 (exRecordAt ["d", "e", "y"] 0o644 [3]) fsA = Outcome.ok fsB ∧
      unzipLoop 0 StreamEnd.eof [exRecordAt ["d", "x"] 0o644 [1, 2]] fsB
        = Outcome.ok (Unzip (Env.mk exGlob (exCodec [0] exTreeStream) 0)
            (exHome "out" exAttr [0]) ["out"]).fs ∧
      (∀ q, (∀ x ∈ [exRecordAt ["z"] 0o644 [], exDirRecordAt ["d"], exDirRecordAt ["d", "e"]],
          x.header.typeflag = TypeFlag.reg → x.header.name ≠ q) →
        fsA.fileAt q = (exHome "out" exAttr [0]).fileAt q) ∧
      fsB.fileAt ["d", "e", "y"] = some (a', [3]) ∧
      (∀ q, q ≠ ["d", "e", "y"] → fsB.fileAt q = fsA.fileAt q) := by
  have h := Zip_Unzip_order (Env.mk exGlob (exCodec [0] exTreeStream) 0) exTree ["z", "d"]
    (by decide) (by
      intro p hp
      have : p = "z" ∨ p = "d" := by simpa using hp
      rcases this with h | h <;> subst h
      · exact ⟨[["z"]], rfl⟩
      · exact ⟨[["d"]], rfl⟩)
  refine ⟨rfl, rfl, ?_⟩
  exact h.2 (Env.mk exGlob (exCodec [0] exTreeStream) 0) (exHome "out" exAttr [0])
    (Unzip (Env.mk exGlob (exCodec [0] exTreeStream) 0) (exHome "out" exAttr [0]) ["out"]).fs
    ["out"] exAttr [0]
    [exRecordAt ["z"] 0o644 [], exDirRecordAt ["d"], exDirRecordAt ["d", "e"]]
    [exRecordAt ["d", "x"] 0o644 [1, 2]] (exRecordAt ["d", "e", "y"] 0o644 [3]) rfl rfl rfl rfl

/-- C7, amended. Pattern expansion keeps repetitions: on a filesystem without
failing entries and without repeated names, with well-formed patterns, Zip
completes a stream in which the number of records for an entry of the
filesystem is the number of matches, over all patterns, that are the path of
the entry or lie above it: every match writes the entry once, and a path
matched by two patterns, or by a pattern listed twice, is written twice. -/
theorem zipStream_once_per_match (env : Env) (fs : FS) (artifacts : List String)
    (hh : fs.healthy = true) (hd : fs.entries.distinct = true)
    (hg : ∀ p ∈ artifacts, ∃ ms, env.glob fs p = Except.ok ms) :
    ∃ s, zipStream env fs artifacts = Except.ok s ∧
      ∀ (p : Path) (it : Item), fs.lookup p = some it →
        (s.filter (fun r => decide (r.header.name = p))).length =
          ((artifacts.flatMap (fun pattern =>
            match env.glob fs pattern with
            | Except.ok found => found
            | Except.error _ => [])).filter (fun root => decide (root <+: p))).length := by
  refine ⟨_, zipStream_healthy env fs hh artifacts hg, ?_⟩
  intro p it hp
  exact FS.preorder_count_roots fs p it hd hp (zipRoots env fs artifacts)

/-- Witness of `zipStream_once_per_match`: the pattern `a` listed twice
writes the record of the file `a` twice. -/
theorem zipStream_once_per_match_witness :
    zipStream (Env.mk exGlob (exCodec [] []) 0) (exHome "a" exAttr [1, 2]) ["a", "a"]
      = Except.ok [exFileRecord [1, 2], exFileRecord [1, 2]] ∧
    ([exFileRecord [1, 2], exFileRecord [1, 2]].filter
      (fun r => decide (r.header.name = ["a"]))).length = 2 ∧
    ∃ s, zipStream (Env.mk exGlob (exCodec [] []) 0) (exHome "a" exAttr [1, 2]) ["a", "a"]
        = Except.ok s ∧
      (s.filter (fun r => decide (r.header.name = ["a"]))).length =
        ((["a", "a"].flatMap (fun pattern =>
          match (Env.mk exGlob (exCodec [] []) 0).glob (exHome "a" exAttr [1, 2]) pattern with
          | Except.ok found => found
          | Except.error _ => [])).filter (fun root => decide (root <+: ["a"]))).length := by
  obtain ⟨s, hs, hcount⟩ := zipStream_once_per_match (Env.mk exGlob (exCodec [] []) 0)
    (exHome "a" exAttr [1, 2]) ["a", "a"] (by decide) (by decide) (by
      intro p hp
      have : p = "a" := by simpa using hp
      subst this
      exact ⟨[["a"]], rfl⟩)
  exact ⟨rfl, by decide, s, hs, hcount ["a"] (Item.file exAttr [1, 2]) rfl⟩

/-- C1, as stated, fails: a tree that holds the file `a`, readable and not
writable by its owner, and the file `b` is covered by the patterns `a`, `a`,
`b`; Zip archives `a` twice and returns nil, and Unzip of the archive in a
directory that holds only the archive creates `a` from the first record with
the permission bits 0444 and panics at the second record, for which `a` is
opened for writing again (line 138), which an unprivileged process is
denied; the file `b` is not restored. -/
theorem Unzip_panics_on_repeated_read_only_file :
    exPair.fileAt ["a"] = some (exReadOnly, [1, 2]) ∧
    exPair.fileAt ["b"] = some (exAttr, [3]) ∧
    zipStream (Env.mk exGlob (exCodec [0] exPairStream) 0) exPair ["a", "a", "b"]
      = Except.ok exPairStream ∧
    ∃ fsZ aZ fsP,
      Zip (Env.mk exGlob (exCodec [0] exPairStream) 0) exPair ["out"] ["a", "a", "b"]
        = Outcome.ok fsZ ∧
      fsZ.fileAt ["out"] = some (aZ, [0]) ∧
      Unzip (Env.mk exGlob (exCodec [0] exPairStream) 0) (exHome "out" exAttr [0]) ["out"]
        = Outcome.panic Err.permission fsP ∧
      fsP.fileAt ["b"] = none := by
  refine ⟨rfl, rfl, rfl,
    (Zip (Env.mk exGlob (exCodec [0] exPairStream) 0) exPair ["out"] ["a", "a", "b"]).fs,
    Attr.mk 0o777 0 0 true true,
    (Unzip (Env.mk exGlob (exCodec [0] exPairStream) 0) (exHome "out" exAttr [0]) ["out"]).fs,
    rfl, rfl, rfl, rfl⟩

/-- C1, amended. Round trip for regular files: on a filesystem without
failing entries and without repeated names, with well-formed patterns whose
matches archive no regular file twice that its owner may not write, a
destination that does not exist in an existing directory, and a byte form
that decodes the archive of the stream back to the stream, Zip returns nil and
leaves the archive at the destination; and Unzip of that archive, in a
directory without failing entries that holds nothing but the archive and the
directories above it, returns nil and leaves, for every regular file at or
below a match of a pattern, a regular file at the same path with the same
content and with the modification time of the original to the second, rounded
to the nearest. -/
theorem Zip_Unzip_round_trip (env : Env) (fs : FS) (f : Path) (artifacts : List String)
    (hh : fs.healthy = true) (hd : fs.entries.distinct = true)
    (hg : ∀ p ∈ artifacts, ∃ ms, env.glob fs p = Except.ok ms)
    (hf : fs.kindAt f = none) (hpar : fs.kindAt f.dropLast = some Kind.dir)
    (hcodec : ∀ s, zipStream env fs artifacts = Except.ok s →
      env.codec.decode (env.codec.encode s) = Decoded.mk s StreamEnd.eof)
    (honce : ∀ p a c, fs.fileAt p = some (a, c) → a.ownerWrite = true ∨
      ((artifacts.flatMap (fun pattern =>
        match env.glob fs pattern with
        | Except.ok found => found
        | Except.error _ => [])).filter (fun root => decide (root <+: p))).length ≤ 1) :
    ∃ fsZ aZ s, zipStream env fs artifacts = Except.ok s ∧
      Zip env fs f artifacts = Outcome.ok fsZ ∧
      fsZ.fileAt f = some (aZ, env.codec.encode s) ∧
      ∀ (fsE : FS) (aE : Attr), fsE.healthy = true →
        fsE.fileAt f = some (aE, env.codec.encode s) →
        (∀ q k, q ≠ f → fsE.kindAt q = some k → k = Kind.dir ∧ q <+: f.dropLast) →
        ∃ fsU, Unzip env fsE f = Outcome.ok fsU ∧
          ∀ p a c, fs.fileAt p = some (a, c) →
            (∃ root ∈ artifacts.flatMap (fun pattern =>
                match env.glob fs pattern with
                | Except.ok found => found
                | Except.error _ => []), root <+: p) →
            ∃ a', fsU.fileAt p = some (a', c) ∧ a'.modTime = roundToSecond a.modTime := by
  have hS := zipStream_healthy env fs hh artifacts hg
  obtain ⟨fsZ, hz, hq⟩ := Zip_creates env fs f artifacts _ hS hf hpar
  refine ⟨fsZ, Attr.mk 0o777 env.now env.now true true, _, hS, hz, ?_, ?_⟩
  · rw [FS.fileAt_eq_some]
    simpa using hq f
  intro fsE aE hhE hE honly
  have hEk := (FS.fileAt_eq_some _ _ _ _).mp hE
  have hread : aE.canRead = true := by
    have := FS.lookup_healthy fsE f _ hhE (FS.lookup_of_kind_file fsE f aE _ hEk)
    simp only [Item.healthy, Bool.and_eq_true] at this
    exact this.2
  -- every record of the stream is the record of the entry at its path
  have hrec : ∀ r ∈ (zipRoots env fs artifacts).flatMap (preorder fs),
      ∃ it, fs.lookup r.header.name = some it ∧ r = entryRecord r.header.name it := by
    intro r hr
    obtain ⟨root, -, hroot⟩ := List.mem_flatMap.mp hr
    obtain ⟨it, h1, h2, -⟩ := FS.lookup_of_preorder fs root r hd hroot
    exact ⟨it, h1, h2⟩
  have hregs : ∀ r ∈ (zipRoots env fs artifacts).flatMap (preorder fs),
      r.header.typeflag = TypeFlag.reg →
      ∃ a c, fs.kindAt r.header.name = some (Kind.file a c) ∧ r.header.mode = a.mode ∧
        a.ownerRead = true := by
    intro r hr hreg
    obtain ⟨it, hl, he⟩ := hrec r hr
    have hreg2 := hreg
    rw [he] at hreg2
    obtain ⟨a, c, hit⟩ := entryRecord_reg _ _ hreg2
    subst hit
    have hhealthy := FS.lookup_healthy fs _ _ hh hl
    simp only [Item.healthy, Attr.canRead, Bool.and_eq_true] at hhealthy
    refine ⟨a, c, by simp [FS.kindAt, hl, Item.kind], ?_, hhealthy.2.2⟩
    rw [he, entryRecord_mode]
    rfl
  -- the directory of the restore is a state of the restore
  have hinv : Restoring fs fsE f [] := by
    constructor
    · intro q hk
      have hqf : q ≠ f := by
        intro e; rw [e, hEk] at hk; simp at hk
      obtain ⟨-, hpre⟩ := honly q _ hqf hk
      by_cases hq' : q = f.dropLast
      · rw [hq']; exact hpar
      · exact FS.dir_above fs _ q _ hpar hpre hq'
    · intro q a c hk
      by_cases hqf : q = f
      · exact Or.inl hqf
      · have := (honly q _ hqf hk).1
        simp at this
  obtain ⟨fsU, hU⟩ := restore_loop env.now fs f hf _ [] fsE hregs
    (FS.preorder_read_only_once fs hd (zipRoots env fs artifacts) honce)
    (fun _ _ _ _ => by simp) hinv
  have hUnzip : Unzip env fsE f = Outcome.ok fsU := by
    simp [Unzip, hE, hread, hcodec _ hS, hU]
  refine ⟨fsU, hUnzip, ?_⟩
  intro p a c hp hcov
  obtain ⟨root, hroot, hpre⟩ := hcov
  have hpk := (FS.fileAt_eq_some _ _ _ _).mp hp
  have hl := FS.lookup_of_kind_file fs p a c hpk
  have hmem : entryRecord p (Item.file a c) ∈
      (zipRoots env fs artifacts).flatMap (preorder fs) :=
    List.mem_flatMap.mpr ⟨root, hroot, FS.preorder_of_lookup fs root p _ hd hl hpre⟩
  obtain ⟨x, hx⟩ := lastReg_isSome _ _ hmem rfl
  have hname : (entryRecord p (Item.file a c)).header.name = p := entryRecord_name _ _
  rw [hname] at hx
  obtain ⟨hxm, -, hxn⟩ := lastReg_mem _ _ _ hx
  obtain ⟨it, hxl, hxe⟩ := hrec x hxm
  rw [hxn, hl] at hxl
  simp at hxl
  subst hxl
  rw [hxn] at hxe
  obtain ⟨a', hk', hm'⟩ := (unzipLoop_ok env.now StreamEnd.eof _ fsE fsU hU).1 p x hx
  refine ⟨a', ?_, ?_⟩
  · rw [FS.fileAt_eq_some, hk', hxe]; rfl
  · rw [hm', hxe]; rfl

/-- Witness of `Zip_Unzip_round_trip`: the example tree is archived to `out`
for the patterns `z`, `d` and `z` again, and restored in a directory that
holds only `out`; the file `d/e/y` comes back with its content and, modified
at 1.5 s, with the modification time 2 s, and so does the file `z`, which its
owner may write and which is archived twice. -/
theorem Zip_Unzip_round_trip_witness :
    ∃ fsZ aZ fsU a' a'',
      Zip (Env.mk exGlob (exCodec [0] (exTreeStream ++ [exRecordAt ["z"] 0o644 []])) 0)
        exTree ["out"] ["z", "d", "z"] = Outcome.ok fsZ ∧
      fsZ.fileAt ["out"] = some (aZ, [0]) ∧
      Unzip (Env.mk exGlob (exCodec [0] (exTreeStream ++ [exRecordAt ["z"] 0o644 []])) 0)
        (exHome "out" exAttr [0]) ["out"] = Outcome.ok fsU ∧
      exTree.fileAt ["d", "e", "y"] = some (exAttr, [3]) ∧
      fsU.fileAt ["d", "e", "y"] = some (a', [3]) ∧
      a'.modTime = roundToSecond exAttr.modTime ∧
      exTree.fileAt ["z"] = some (exAttr, []) ∧
      fsU.fileAt ["z"] = some (a'', []) ∧
      a''.modTime = roundToSecond exAttr.modTime ∧
      roundToSecond exAttr.modTime = 2000000000 := by
  have hstream : zipStream
      (Env.mk exGlob (exCodec [0] (exTreeStream ++ [exRecordAt ["z"] 0o644 []])) 0)
      exTree ["z", "d", "z"] = Except.ok (exTreeStream ++ [exRecordAt ["z"] 0o644 []]) := rfl
  have hmodes : ∀ r ∈ preorder exTree [], r.header.mode / 128 % 2 = 1 := by decide
  obtain ⟨fsZ, aZ, s, -, hz, hfile, hrest⟩ :=
    Zip_Unzip_round_trip
      (Env.mk exGlob (exCodec [0] (exTreeStream ++ [exRecordAt ["z"] 0o644 []])) 0)
      exTree ["out"] ["z", "d", "z"] (by decide) (by decide)
      (by
        intro p hp
        have : p = "z" ∨ p = "d" := by
          simp only [List.mem_cons, List.mem_singleton, List.mem_nil_iff, or_false] at hp
          rcases hp with h | h | h
          · exact Or.inl h
          · exact Or.inr h
          · exact Or.inl h
        rcases this with h | h <;> subst h
        · exact ⟨[["z"]], rfl⟩
        · exact ⟨[["d"]], rfl⟩)
      rfl rfl
      (by
        intro s hs
        rw [hstream] at hs
        cases hs
        rfl)
      (by
        intro p a c hp
        left
        have hl := FS.lookup_of_kind_file exTree p a c ((FS.fileAt_eq_some _ _ _ _).mp hp)
        have hmem := FS.preorder_of_lookup exTree [] p _ (by decide) hl List.nil_prefix
        have := hmodes _ hmem
        rw [entryRecord_mode] at this
        simpa [Attr.ownerWrite, Item.attr] using this)
  obtain ⟨fsU, hu, hfiles⟩ := hrest (exHome "out" exAttr [0]) exAttr (by decide) rfl (by
    intro q k hq hk
    match q, hq, hk with
    | [], _, hk =>
      simp [FS.kindAt_root] at hk
      exact ⟨hk.symm, List.prefix_refl _⟩
    | [m], hq, hk =>
      by_cases hm : m = "out"
      · subst hm; simp at hq
      · simp [FS.kindAt, FS.lookup, exHome, Listing.lookup, hm] at hk
    | m :: m2 :: qs, _, hk =>
      by_cases hm : m = "out"
      · simp [FS.kindAt, FS.lookup, exHome, Listing.lookup, hm] at hk
      · simp [FS.kindAt, FS.lookup, exHome, Listing.lookup, hm] at hk)
  obtain ⟨a', ha', hm'⟩ := hfiles ["d", "e", "y"] exAttr [3] rfl ⟨["d"], by decide, by decide⟩
  obtain ⟨a'', ha'', hm''⟩ := hfiles ["z"] exAttr [] rfl ⟨["z"], by decide, by decide⟩
  exact ⟨fsZ, aZ, fsU, a', a'', hz, hfile, hu, rfl, ha', hm', rfl, ha'', hm'', rfl⟩

end ActionS3Cache
